import Mathlib

/-!
Shallow embedding of the per-thread I/O reactor of `src/main/main.c`
(handle registry, backend selection, polling loop entry, thread affinity),
together with proofs about its registry invariant, its round-trip and
error-handling behaviour, and its thread-check protocol.

Modelling conventions:
* The POSIX (non-WIN32) build with all four polling mechanisms compiled in
  is modelled; `DEFAULT_MAXFDS` is `FD_SETSIZE` = 1024.
* Machine `int` values are modelled as `Int`; flag masks as `Nat`.
* Pointers to `struct fhs` records are modelled by the record's position in
  the registry list (the hash bucket chain); `hash_lookup` finds the first
  record whose `fd` field matches, and in-place mutations through the
  looked-up pointer are modelled as updates of that first matching record.
* Kernel calls (`epoll_ctl`, `kevent`, `epoll_create`, `kqueue`,
  `getrlimit`, memory allocation) are modelled as succeeding; their
  descriptor results are fixed non-negative model constants.
-/

/-- POSIX error numbers used by the reactor (Linux values). -/
def EINVAL : Int := 22
def ENOMEM : Int := 12
def EMFILE : Int := 24
def EBADF : Int := 9
def EBADFD : Int := 77
def EPERM : Int := 1
def EALREADY : Int := 114
def EINTR : Int := 4

/-- Modelled from the spec: interest bits READ = 1, WRITE = 2, EXCEPT = 4
(declared in `re_main.h`, outside the excerpt). -/
def FD_READ : Nat := 1
def FD_WRITE : Nat := 2
def FD_EXCEPT : Nat := 4

/-- Modelled from the spec: the sentinel "no handle" value (POSIX build,
`re_net.h` outside the excerpt): an invalid descriptor, -1. -/
def BAD_SOCK : Int := -1

/-- `DEFAULT_MAXFDS` = `FD_SETSIZE` on the modelled platform. -/
def DEFAULT_MAXFDS : Int := 1024

/-- `poll()` event bits (Linux values). -/
def POLLIN : Nat := 1
def POLLOUT : Nat := 4
def POLLERR : Nat := 8

/-- Polling mechanism tags (`enum poll_method`). -/
inductive PollMethod where
  | null
  | poll
  | select
  | epoll
  | kqueue
deriving DecidableEq, Repr

/-- File descriptor handler record (`struct fhs`).  The intrusive hash and
delete-list links (`he`, `le_delete`) are represented by membership in the
registry list and delete list of the reactor state. -/
structure Fhs where
  index : Int
  fd : Int
  flags : Nat
  fh : Option Nat
  arg : Nat
deriving DecidableEq, Repr

/-- One slot of the `poll()` backend's parallel array (`struct pollfd`);
`revents` is written by the kernel during the wait and is not modelled. -/
structure PollFd where
  fd : Int
  events : Nat
deriving DecidableEq, Repr

/-- Reactor state (`struct re`).  The timer list and the two mutex objects
are collaborators: the timer list is opaque to the claims below and the
active mutex is modelled by the single flag `mutexHeld`. -/
structure Re where
  fhl : Option (List Fhs)
  fhsDelete : List Int
  fhs_reuse : Bool
  maxfds : Int
  max_fd : Int
  nfds : Int
  method : PollMethod
  update : Bool
  polling : Bool
  sig : Int
  fds : Option (List PollFd)
  events : Bool
  epfd : Int
  kqfd : Int
  evlist : Bool
  mutexHeld : Bool
  tid : Nat
  thread_enter : Bool
deriving DecidableEq, Repr

/-- `re_alloc`: zeroed reactor; reuse enabled on the POSIX build; backend
descriptors start at -1; the owning thread id is recorded. -/
def re_alloc (tid : Nat) : Re :=
  { fhl := none
    fhsDelete := []
    fhs_reuse := true
    maxfds := 0
    max_fd := 0
    nfds := 0
    method := .null
    update := false
    polling := false
    sig := 0
    fds := none
    events := false
    epfd := -1
    kqfd := -1
    evlist := false
    mutexHeld := false
    tid := tid
    thread_enter := false }

/-! ### Registry (hash) primitives

`hash_lookup(re->fhl, fd, fhs_lookup, &fd)` scans the bucket chain and
returns the first record whose `fd` equals the key; mutation through the
returned pointer is modelled by replacing that first matching record.
A NULL hash (`fhl = none`) yields no matches, and appending to it is a
no-op (the hash collaborator checks its arguments). -/

def findFd : List Fhs → Int → Option Fhs
  | [], _ => none
  | g :: t, fd => if g.fd = fd then some g else findFd t fd

def setFd : List Fhs → Int → Fhs → List Fhs
  | [], _, _ => []
  | g :: t, fd, g' => if g.fd = fd then g' :: t else g :: setFd t fd g'

def setIdx : List Fhs → Int → Int → List Fhs
  | [], _, _ => []
  | g :: t, fd, i => if g.fd = fd then { g with index := i } :: t else g :: setIdx t fd i

def removeFd : List Fhs → Int → List Fhs
  | [], _ => []
  | g :: t, fd => if g.fd = fd then t else g :: removeFd t fd

def fhl_lookup : Option (List Fhs) → Int → Option Fhs
  | none, _ => none
  | some l, fd => findFd l fd

def fhl_set : Option (List Fhs) → Int → Fhs → Option (List Fhs)
  | none, _, _ => none
  | some l, fd, g' => some (setFd l fd g')

def fhl_set_index : Option (List Fhs) → Int → Int → Option (List Fhs)
  | none, _, _ => none
  | some l, fd, i => some (setIdx l fd i)

def fhl_remove : Option (List Fhs) → Int → Option (List Fhs)
  | none, _ => none
  | some l, fd => some (removeFd l fd)

def fhl_append : Option (List Fhs) → Fhs → Option (List Fhs)
  | none, _ => none
  | some l, g => some (l ++ [g])

/-- The records of the registry (empty for a NULL hash). -/
def listO : Option (List Fhs) → List Fhs
  | none => []
  | some l => l

/-! ### Backend adapters -/

/-- Modelled kernel descriptors returned by `epoll_create` / `kqueue`. -/
def epollCreateFd : Int := 4
def kqueueCreateFd : Int := 5

/-- Event-mask translation of `set_poll_fds`. -/
def pollEvents (flags : Nat) : Nat :=
  (if flags &&& FD_READ ≠ 0 then POLLIN else 0) |||
  (if flags &&& FD_WRITE ≠ 0 then POLLOUT else 0) |||
  (if flags &&& FD_EXCEPT ≠ 0 then POLLERR else 0)

/-- `set_poll_fds`: write the record's slot of the parallel `pollfd` array.
A record is always passed, so the `!fhs` check cannot fire.  A negative
index would make the source index out of bounds; that situation is not
reached on the verified paths and is modelled as leaving the array alone. -/
def set_poll_fds (re : Re) (g : Fhs) : Int × Re :=
  match re.fds with
  | none => (0, re)
  | some a =>
    if re.maxfds ≤ g.index then (EMFILE, re)
    else if g.index < 0 then (0, re)
    else
      let slot : PollFd := ⟨if g.flags ≠ 0 then g.fd else -1, pollEvents g.flags⟩
      (0, { re with fds := some (a.set g.index.toNat slot) })

/-- `set_epoll_fds`: the `epoll_ctl` ADD/MOD/DEL calls are kernel calls,
modelled as succeeding; only the descriptor-validity check remains. -/
def set_epoll_fds (re : Re) (_g : Fhs) : Int × Re :=
  if re.epfd < 0 then (EBADFD, re) else (0, re)

/-- `set_kqueue_fds`: delete-then-add through `kevent`, a kernel call
modelled as succeeding. -/
def set_kqueue_fds (_re : Re) (_g : Fhs) : Int × Re :=
  (0, _re)

/-- `rebuild_fd`: push one record into the active backend; records without
a handler are skipped. -/
def rebuild_fd (re : Re) (g : Fhs) : Int × Re :=
  if g.fh.isNone then (0, re)
  else
    match re.method with
    | .poll => set_poll_fds re g
    | .epoll => set_epoll_fds re g
    | .kqueue => set_kqueue_fds re g
    | _ => (0, re)

/-- `hash_apply(re->fhl, rebuild_fd, re)`: apply to every record, stopping
at the first failure; `true` means some record failed. -/
def rebuild_all (re : Re) : List Fhs → Bool × Re
  | [] => (false, re)
  | g :: t =>
    let r := rebuild_fd re g
    if r.1 ≠ 0 then (true, r.2) else rebuild_all r.2 t

/-- `poll_close`: release all backend state. -/
def poll_close (re : Re) : Re :=
  { re with maxfds := 0, fds := none, epfd := -1, events := false,
            kqfd := -1, evlist := false }

/-- `fd_setsize`: 0 releases backend state; a negative argument queries the
process descriptor soft limit (`getrlimit`, modelled by a constant); only
the first positive call initializes `maxfds`. -/
def rlimitNofile : Int := 1024

def fd_setsize (re : Re) (maxfds : Int) : Int × Re :=
  if maxfds = 0 then (0, poll_close re)
  else
    let m := if maxfds < 0 then rlimitNofile else maxfds
    (0, if re.maxfds = 0 then { re with maxfds := m } else re)

/-- `poll_init`: allocate the registry hash and the mechanism-specific
state; idempotent.  Allocation is modelled as succeeding. -/
def poll_init (re : Re) : Int × Re :=
  if re.maxfds = 0 then (EINVAL, re)
  else
    let re := if re.fhl.isNone then { re with fhl := some [] } else re
    match re.method with
    | .poll =>
      (0, if re.fds.isNone
          then { re with fds := some (List.replicate re.maxfds.toNat ⟨0, 0⟩) }
          else re)
    | .epoll =>
      let re := { re with events := true }
      (0, if re.epfd < 0 then { re with epfd := epollCreateFd } else re)
    | .kqueue =>
      let re := { re with evlist := true }
      (0, if re.kqfd < 0 then { re with kqfd := kqueueCreateFd } else re)
    | _ => (0, re)

/-- Modelled from the spec: `poll_method_best` (defined in `method.c`,
outside the excerpt) picks the best mechanism compiled in; on the modelled
platform that is the readiness notification queue. -/
def poll_method_best : PollMethod := .epoll

/-- `poll_method_set`: validate the method, switch the tag, set the update
flag, initialize the backend, and push every handler-carrying record into
it. -/
def poll_method_set (re : Re) (method : PollMethod) : Int × Re :=
  let s := fd_setsize re DEFAULT_MAXFDS
  if s.1 ≠ 0 then s
  else
    let re := s.2
    let valid : Int :=
      match method with
      | .poll => 0
      | .select => if DEFAULT_MAXFDS < re.max_fd then EMFILE else 0
      | .epoll => 0
      | .kqueue => 0
      | .null => EINVAL
    if valid ≠ 0 then (valid, re)
    else
      let re := { re with method := method, update := true }
      let p := poll_init re
      if p.1 ≠ 0 then p
      else
        let r := rebuild_all p.2 (listO p.2.fhl)
        if r.1 then (EBADF, r.2) else (0, r.2)

/-- `poll_setup`: ensure `maxfds`, a mechanism, and the backend state all
exist; on failure everything is closed again. -/
def poll_setup (re : Re) : Int × Re :=
  let s := fd_setsize re DEFAULT_MAXFDS
  if s.1 ≠ 0 then (s.1, poll_close s.2)
  else
    let m := if s.2.method = .null then poll_method_set s.2 poll_method_best
             else (0, s.2)
    if m.1 ≠ 0 then (m.1, poll_close m.2)
    else
      let p := poll_init m.2
      (p.1, if p.1 ≠ 0 then poll_close p.2 else p.2)

/-! ### Handle registry update and `fd_listen` -/

/-- `re_thread_check`: OK inside a `thread_enter` window or on the owning
thread; otherwise EPERM. -/
def re_thread_check (re : Re) (cur : Nat) : Int :=
  if re.thread_enter then 0
  else if cur = re.tid then 0
  else EPERM

/-- `fhs_update`: look the handle up; allocate a fresh record (with index
-1) when absent; records whose index is -1 get the next dense index
`++re->nfds - 1`; callback, argument and interests are stored; fresh
records are appended to the hash.  Allocation is modelled as succeeding
(the ENOMEM path is not taken). -/
def fhs_update (re : Re) (fd : Int) (flags : Nat) (fh : Option Nat) (arg : Nat) :
    Re × Fhs :=
  match fhl_lookup re.fhl fd with
  | some g =>
    if g.index = -1 then
      let g' : Fhs := ⟨re.nfds, fd, flags, fh, arg⟩
      ({ re with fhl := fhl_set re.fhl fd g', nfds := re.nfds + 1 }, g')
    else
      let g' : Fhs := ⟨g.index, fd, flags, fh, arg⟩
      ({ re with fhl := fhl_set re.fhl fd g' }, g')
  | none =>
    let g' : Fhs := ⟨re.nfds, fd, flags, fh, arg⟩
    ({ re with fhl := fhl_append re.fhl g', nfds := re.nfds + 1 }, g')

/-- The empty-interest (deregistration) block of `fd_listen`.  For empty
interests with reuse disabled the record is destroyed at once outside the
polling window (the source's subsequent store of -1 into the freed
record's index is not observable) or queued on the delete list inside it;
with reuse enabled the record stays, with index -1.  The boolean marks
that control reached this point (and not an early `return`), so that the
caller can apply the `err && flags` close. -/
def fd_listen_dereg (re : Re) (fd : Int) (flags : Nat) (err : Int) :
    Int × Re × Bool :=
  if flags = 0 then
    if ¬re.fhs_reuse ∧ ¬re.polling then
      (err, { re with fhl := fhl_remove re.fhl fd, nfds := re.nfds - 1 }, true)
    else
      let re := if ¬re.fhs_reuse
                then { re with fhsDelete := re.fhsDelete ++ [fd] }
                else re
      (err, { re with fhl := fhl_set_index re.fhl fd (-1), nfds := re.nfds - 1 },
       true)
  else (err, re, true)

/-- Tail of `fd_listen` after the backend switch: the `max_fd` update
(done only when no error occurred) followed by the deregistration
block. -/
def fd_listen_post (re : Re) (fd : Int) (flags : Nat) (err : Int) :
    Int × Re × Bool :=
  fd_listen_dereg
    (if err = 0 then { re with max_fd := max re.max_fd (fd + 1) } else re)
    fd flags err

/-- The registry update and backend switch of `fd_listen`: update the
record, bail out with EBADFD when the readiness-queue mechanism lost its
descriptor (skipping the deregistration block, as the source `return`s
there), push the record into the active backend (for `SELECT`, instead
check the handle against the set bound), then run the tail. -/
def fd_listen_switch (re : Re) (fd : Int) (flags : Nat)
    (fh : Option Nat) (arg : Nat) : Int × Re × Bool :=
  let u := fhs_update re fd flags fh arg
  let re1 := u.1
  if re1.method = .epoll ∧ re1.epfd < 0 then (EBADFD, re1, false)
  else
    let b : Int × Re :=
      match re1.method with
      | .select => (if DEFAULT_MAXFDS ≤ fd + 1 then EMFILE else 0, re1)
      | .poll => set_poll_fds re1 u.2
      | .epoll => set_epoll_fds re1 u.2
      | .kqueue => set_kqueue_fds re1 u.2
      | .null => (0, re1)
    fd_listen_post b.2 fd flags b.1

/-- Body of `fd_listen` up to (but excluding) the final
`if (err && flags) fd_close(fd);`.  The early returns (failed thread
check, sentinel handle, setup failure, missing epoll descriptor) are
tagged `false` so that the close, which the source reaches only by falling
through the switch, is not applied to them. -/
def fd_listen_core (re : Re) (cur : Nat) (fd : Int) (flags : Nat)
    (fh : Option Nat) (arg : Nat) : Int × Re × Bool :=
  if re_thread_check re cur ≠ 0 then (re_thread_check re cur, re, false)
  else if fd = BAD_SOCK then (EBADF, re, false)
  else
    let s := if flags ≠ 0 ∨ fh.isSome then poll_setup re else (0, re)
    if s.1 ≠ 0 then (s.1, s.2, false)
    else fd_listen_switch s.2 fd flags fh arg

/-- `fd_listen`: register (non-empty `flags`) or deregister (empty
`flags`) interest in a handle.  When a registration fails after the
record was bound, the handle is closed on the caller's behalf
(`fd_close`, which is `fd_listen` with empty interests and no handler). -/
def fd_listen (re : Re) (cur : Nat) (fd : Int) (flags : Nat)
    (fh : Option Nat) (arg : Nat) : Int × Re :=
  let c := fd_listen_core re cur fd flags fh arg
  if c.2.2 ∧ c.1 ≠ 0 ∧ flags ≠ 0 then
    (c.1, (fd_listen_core c.2.1 cur fd 0 none 0).2.1)
  else (c.1, c.2.1)

/-- `fd_close fd` = `fd_listen(fd, 0, NULL, NULL)` (result discarded). -/
def fd_close (re : Re) (cur : Nat) (fd : Int) : Re :=
  (fd_listen re cur fd 0 none 0).2

/-- One `fd_listen` call of a register/deregister sequence. -/
structure FdOp where
  cur : Nat
  fd : Int
  flags : Nat
  fh : Option Nat
  arg : Nat

/-- Run a sequence of `fd_listen` calls, keeping the state and discarding
the per-call error codes. -/
def run_ops (re : Re) : List FdOp → Re
  | [] => re
  | op :: t => run_ops (fd_listen re op.cur op.fd op.flags op.fh op.arg).2 t

/-! ### Thread affinity, queries, loop entry -/

/-- `re_get`: the thread's own reactor, falling back to the global one. -/
def re_get (slot glob : Option Re) : Option Re :=
  match slot with
  | some re => some re
  | none => glob

/-- `re_nfds`: number of active file descriptors; 0 without a reactor. -/
def re_nfds (slot glob : Option Re) : Int :=
  match re_get slot glob with
  | some re => re.nfds
  | none => 0

/-- `poll_method_get`: current mechanism; METHOD_NULL without a reactor. -/
def poll_method_get (slot glob : Option Re) : PollMethod :=
  match re_get slot glob with
  | some re => re.method
  | none => .null

/-- `re_thread_enter`: lock the active mutex, disable record reuse, and
flag the entry — the flag is set only for non-owning threads. -/
def re_thread_enter (re : Re) (cur : Nat) : Re :=
  let re := { re with mutexHeld := true }
  let re := { re with fhs_reuse := false }
  if cur ≠ re.tid then { re with thread_enter := true } else re

/-- `re_thread_leave`: clear the flag and unlock. -/
def re_thread_leave (re : Re) : Re :=
  { re with thread_enter := false, mutexHeld := false }

/-- `re_thread_attach`: bind the calling thread's slot to a foreign
reactor.  Reactor identity (the `struct re *` value) is modelled by a
numeric id. -/
def re_thread_attach (slot : Option Nat) (context : Option Nat) :
    Int × Option Nat :=
  match context with
  | none => (EINVAL, slot)
  | some c =>
    match slot with
    | some r => if r ≠ c then (EALREADY, some r) else (0, some r)
    | none => (0, some c)

/-- The error-handling skeleton of `re_main`'s loop: each trace entry is
the return value of one `fd_poll` call (0 = a successful wait-and-dispatch
pass).  EINTR always retries; on the platform with the workaround
(`DARWIN`) EBADF also retries; any other error exits the loop.  `none`
means the trace ended with the loop still running.  Signal latch delivery,
cancellation and timer polling leave this error skeleton unchanged and are
not modelled. -/
def re_main_loop (darwin : Bool) : List Int → Option Int
  | [] => none
  | e :: t =>
    if e ≠ 0 then
      if e = EINTR then re_main_loop darwin t
      else if darwin ∧ e = EBADF then re_main_loop darwin t
      else some e
    else re_main_loop darwin t

/-- `re_main`: entry checks (missing reactor, loop already polling), setup,
then the polling loop driven by a trace of `fd_poll` results; on exit the
polling flag is cleared.  `none` means the loop is still running when the
trace ends. -/
def re_main (darwin : Bool) (reo : Option Re) (_signalh : Bool)
    (trace : List Int) : Option (Int × Option Re) :=
  match reo with
  | none => some (EINVAL, none)
  | some re =>
    if re.polling then some (EALREADY, some re)
    else
      let s := poll_setup re
      if s.1 ≠ 0 then some (s.1, some { s.2 with polling := false })
      else
        let re := { s.2 with polling := true }
        match re_main_loop darwin trace with
        | none => none
        | some e =>
          some ((if e = 0 then 0 else e), some { re with polling := false })

/-! ### The registry invariant -/

/-- 1 for a record with non-empty interest, else 0. -/
def activeBit (g : Fhs) : Int :=
  if g.flags = 0 then 0 else 1

/-- Number of records with non-empty interest. -/
def countActive : List Fhs → Int
  | [] => 0
  | g :: t => activeBit g + countActive t

def countActiveO (o : Option (List Fhs)) : Int :=
  countActive (listO o)

/-- The registry invariant: `nfds` counts the records with non-empty
interest; a record's interest is empty exactly when its index is -1; and
an installed readiness-queue mechanism has a valid descriptor. -/
def re_wf (re : Re) : Prop :=
  re.nfds = countActiveO re.fhl ∧
  (∀ g ∈ listO re.fhl, (g.flags = 0 ↔ g.index = -1)) ∧
  (re.method = .epoll → 0 ≤ re.epfd)

instance (re : Re) : Decidable (re_wf re) := by
  unfold re_wf; infer_instance

/-! ### Registry list lemmas -/

theorem countActive_nonneg (l : List Fhs) : 0 ≤ countActive l := by
  induction l with
  | nil => simp [countActive]
  | cons g t ih =>
    simp only [countActive, activeBit]
    split <;> omega

theorem findFd_mem {l : List Fhs} {fd : Int} {g : Fhs}
    (h : findFd l fd = some g) : g ∈ l ∧ g.fd = fd := by
  induction l with
  | nil => simp [findFd] at h
  | cons a t ih =>
    simp only [findFd] at h
    by_cases ha : a.fd = fd
    · simp [ha] at h
      subst h
      exact ⟨List.mem_cons_self a t, ha⟩
    · simp [ha] at h
      rcases ih h with ⟨h1, h2⟩
      exact ⟨List.mem_cons_of_mem a h1, h2⟩

theorem countActive_setFd (l : List Fhs) (fd : Int) (g' : Fhs) :
    countActive (setFd l fd g') =
      countActive l +
        (match findFd l fd with
         | some g => activeBit g' - activeBit g
         | none => 0) := by
  induction l with
  | nil => simp [setFd, findFd]
  | cons a t ih =>
    by_cases ha : a.fd = fd
    · simp only [setFd, findFd, if_pos ha, countActive]
      ring
    · simp only [setFd, findFd, if_neg ha, countActive, ih]
      cases hf : findFd t fd
      · simp
      · simp
        ring

theorem countActive_append (l : List Fhs) (g : Fhs) :
    countActive (l ++ [g]) = countActive l + activeBit g := by
  induction l with
  | nil => simp [countActive]
  | cons a t ih => simp [countActive, ih]; omega

theorem countActive_removeFd (l : List Fhs) (fd : Int) :
    countActive (removeFd l fd) =
      countActive l -
        (match findFd l fd with
         | some g => activeBit g
         | none => 0) := by
  induction l with
  | nil => simp [removeFd, findFd, countActive]
  | cons a t ih =>
    by_cases ha : a.fd = fd
    · simp only [removeFd, findFd, if_pos ha, countActive]
      ring
    · simp only [removeFd, findFd, if_neg ha, countActive, ih]
      cases hf : findFd t fd
      · simp
      · simp
        ring

theorem countActive_setFd_found {l : List Fhs} {fd : Int} {g : Fhs}
    (hfind : findFd l fd = some g) (g' : Fhs) :
    countActive (setFd l fd g') = countActive l + (activeBit g' - activeBit g) := by
  rw [countActive_setFd, hfind]

theorem countActive_removeFd_found {l : List Fhs} {fd : Int} {g : Fhs}
    (hfind : findFd l fd = some g) :
    countActive (removeFd l fd) = countActive l - activeBit g := by
  rw [countActive_removeFd, hfind]

theorem removeFd_setFd {g' : Fhs} {fd : Int} (l : List Fhs) (h : g'.fd = fd) :
    removeFd (setFd l fd g') fd = removeFd l fd := by
  induction l with
  | nil => simp [setFd, removeFd]
  | cons a t ih =>
    by_cases ha : a.fd = fd
    · simp [setFd, removeFd, ha, h]
    · simp [setFd, removeFd, ha, ih]

theorem setIdx_setFd {g' : Fhs} {fd : Int} (l : List Fhs) (i : Int)
    (h : g'.fd = fd) :
    setIdx (setFd l fd g') fd i = setFd l fd { g' with index := i } := by
  induction l with
  | nil => simp [setFd, setIdx]
  | cons a t ih =>
    by_cases ha : a.fd = fd
    · simp [setFd, setIdx, ha, h]
    · simp [setFd, setIdx, ha, ih]

theorem setIdx_append_of_none {l : List Fhs} {fd : Int} {g' : Fhs}
    (hn : findFd l fd = none) (h : g'.fd = fd) (i : Int) :
    setIdx (l ++ [g']) fd i = l ++ [{ g' with index := i }] := by
  induction l with
  | nil => simp [setIdx, h]
  | cons a t ih =>
    simp only [findFd] at hn
    by_cases ha : a.fd = fd
    · simp [ha] at hn
    · simp [ha] at hn
      simp [setIdx, ha, ih hn]

theorem removeFd_append_of_none {l : List Fhs} {fd : Int} {g' : Fhs}
    (hn : findFd l fd = none) (h : g'.fd = fd) :
    removeFd (l ++ [g']) fd = l := by
  induction l with
  | nil => simp [removeFd, h]
  | cons a t ih =>
    simp only [findFd] at hn
    by_cases ha : a.fd = fd
    · simp [ha] at hn
    · simp [ha] at hn
      simp [removeFd, ha, ih hn]

theorem mem_setFd {h : Fhs} {l : List Fhs} {fd : Int} {g' : Fhs}
    (hm : h ∈ setFd l fd g') : h ∈ l ∨ h = g' := by
  induction l with
  | nil => simp [setFd] at hm
  | cons a t ih =>
    by_cases ha : a.fd = fd
    · simp [setFd, ha] at hm
      rcases hm with hm | hm
      · right; exact hm
      · left; exact List.mem_cons_of_mem a hm
    · simp [setFd, ha] at hm
      rcases hm with hm | hm
      · left; simp [hm]
      · rcases ih hm with h1 | h1
        · left; exact List.mem_cons_of_mem a h1
        · right; exact h1

theorem mem_removeFd {h : Fhs} {l : List Fhs} {fd : Int}
    (hm : h ∈ removeFd l fd) : h ∈ l := by
  induction l with
  | nil => simp [removeFd] at hm
  | cons a t ih =>
    by_cases ha : a.fd = fd
    · simp [removeFd, ha] at hm
      exact List.mem_cons_of_mem a hm
    · simp [removeFd, ha] at hm
      rcases hm with hm | hm
      · simp [hm]
      · exact List.mem_cons_of_mem a (ih hm)

theorem findFd_setFd {l : List Fhs} {fd : Int} {g g' : Fhs}
    (hf : findFd l fd = some g) (h : g'.fd = fd) :
    findFd (setFd l fd g') fd = some g' := by
  induction l with
  | nil => simp [findFd] at hf
  | cons a t ih =>
    by_cases ha : a.fd = fd
    · simp [setFd, findFd, ha, h]
    · simp [findFd, ha] at hf
      simp [setFd, findFd, ha, ih hf]

theorem findFd_append_of_none {l : List Fhs} {fd : Int} {g' : Fhs}
    (hn : findFd l fd = none) (h : g'.fd = fd) :
    findFd (l ++ [g']) fd = some g' := by
  induction l with
  | nil => simp [findFd, h]
  | cons a t ih =>
    simp only [findFd] at hn
    by_cases ha : a.fd = fd
    · simp [ha] at hn
    · simp [ha] at hn
      simp [findFd, ha, ih hn]

/-! ### Setup-path state lemmas

`poll_setup` (and its callees) only ever touch the backend state,
`maxfds`, `method` and the `update` flag: the registry contents, `nfds`
and the thread/locking fields pass through unchanged. -/

/-- Fields of the reactor that the setup path leaves unchanged. -/
def SetupPres (a b : Re) : Prop :=
  b.nfds = a.nfds ∧ listO b.fhl = listO a.fhl ∧ b.fhs_reuse = a.fhs_reuse ∧
  b.polling = a.polling ∧ b.tid = a.tid ∧ b.thread_enter = a.thread_enter ∧
  b.max_fd = a.max_fd ∧ b.fhsDelete = a.fhsDelete ∧ b.sig = a.sig ∧
  b.mutexHeld = a.mutexHeld

theorem setupPres_refl (a : Re) : SetupPres a a := by
  unfold SetupPres; exact ⟨rfl, rfl, rfl, rfl, rfl, rfl, rfl, rfl, rfl, rfl⟩

theorem setupPres_trans {a b c : Re} (h1 : SetupPres a b) (h2 : SetupPres b c) :
    SetupPres a c := by
  unfold SetupPres at *
  obtain ⟨p1, p2, p3, p4, p5, p6, p7, p8, p9, p10⟩ := h1
  obtain ⟨q1, q2, q3, q4, q5, q6, q7, q8, q9, q10⟩ := h2
  exact ⟨q1.trans p1, q2.trans p2, q3.trans p3, q4.trans p4, q5.trans p5,
         q6.trans p6, q7.trans p7, q8.trans p8, q9.trans p9, q10.trans p10⟩

theorem fd_setsize_default (re : Re) :
    fd_setsize re DEFAULT_MAXFDS =
      (0, if re.maxfds = 0 then { re with maxfds := DEFAULT_MAXFDS } else re) := by
  unfold fd_setsize
  norm_num [DEFAULT_MAXFDS]

theorem rebuild_all_epoll (re : Re) (l : List Fhs) (hm : re.method = .epoll)
    (he : 0 ≤ re.epfd) : rebuild_all re l = (false, re) := by
  induction l with
  | nil => rfl
  | cons g t ih =>
    have hfd : rebuild_fd re g = (0, re) := by
      unfold rebuild_fd set_epoll_fds
      rw [hm]
      simp [not_lt.mpr he]
    simp [rebuild_all, hfd, ih]

theorem poll_init_spec (re : Re) (h : re.maxfds ≠ 0) :
    (poll_init re).1 = 0 ∧
    SetupPres re (poll_init re).2 ∧
    (poll_init re).2.fhl.isSome = true ∧
    (poll_init re).2.method = re.method ∧
    (poll_init re).2.maxfds = re.maxfds ∧
    (re.method = .epoll → 0 ≤ (poll_init re).2.epfd) ∧
    (0 ≤ re.epfd → (poll_init re).2.epfd = re.epfd) ∧
    (re.method = .poll → (poll_init re).2.fds.isSome = true) ∧
    (re.fds.isSome = true → (poll_init re).2.fds = re.fds) := by
  unfold poll_init
  rw [if_neg h]
  cases hfl : re.fhl <;> rcases hm : re.method <;>
    simp only [hm, hfl, Option.isNone_none, Option.isNone_some,
               if_true, if_false, ite_true, ite_false] <;>
    (repeat' split) <;>
    simp_all [SetupPres, listO, epollCreateFd, kqueueCreateFd,
              Option.isSome_iff_ne_none]

theorem poll_method_set_epoll_aux (re : Re) (h : re.maxfds ≠ 0) :
    poll_method_set re .epoll =
      (0, (poll_init { re with method := .epoll, update := true }).2) := by
  have h2 : ({ re with method := PollMethod.epoll, update := true } : Re).maxfds ≠ 0 := h
  obtain ⟨e1, p1, s1, m1, x1, f1, q1, d1, k1⟩ := poll_init_spec _ h2
  have hq : (0 : Int) ≤ (poll_init { re with method := PollMethod.epoll, update := true }).2.epfd := f1 rfl
  unfold poll_method_set
  rw [fd_setsize_default, if_neg h]
  simp only [ne_eq, OfNat.ofNat_ne_zero, not_false_eq_true, ite_false, if_false,
             not_true_eq_false, ite_true]
  norm_num
  rw [rebuild_all_epoll _ _ (by rw [m1]) hq]
  simp [e1]

theorem poll_method_set_epoll_spec (re : Re) (h : re.maxfds ≠ 0) :
    (poll_method_set re .epoll).1 = 0 ∧
    SetupPres re (poll_method_set re .epoll).2 ∧
    (poll_method_set re .epoll).2.fhl.isSome = true ∧
    (poll_method_set re .epoll).2.method = .epoll ∧
    0 ≤ (poll_method_set re .epoll).2.epfd ∧
    (poll_method_set re .epoll).2.maxfds = re.maxfds ∧
    (re.fds.isSome = true → (poll_method_set re .epoll).2.fds = re.fds) := by
  have h2 : ({ re with method := PollMethod.epoll, update := true } : Re).maxfds ≠ 0 := h
  obtain ⟨e1, p1, s1, m1, x1, f1, q1, d1, k1⟩ := poll_init_spec _ h2
  rw [poll_method_set_epoll_aux re h]
  refine ⟨rfl, ?_, s1, by rw [m1], f1 rfl, by rw [x1], fun hfds => k1 hfds⟩
  exact setupPres_trans (a := re) ⟨rfl, rfl, rfl, rfl, rfl, rfl, rfl, rfl, rfl, rfl⟩ p1

theorem fd_setsize_default_spec (re : Re) :
    (fd_setsize re DEFAULT_MAXFDS).1 = 0 ∧
    SetupPres re (fd_setsize re DEFAULT_MAXFDS).2 ∧
    (fd_setsize re DEFAULT_MAXFDS).2.method = re.method ∧
    (fd_setsize re DEFAULT_MAXFDS).2.fds = re.fds ∧
    (fd_setsize re DEFAULT_MAXFDS).2.epfd = re.epfd ∧
    (fd_setsize re DEFAULT_MAXFDS).2.maxfds ≠ 0 ∧
    (fd_setsize re DEFAULT_MAXFDS).2.maxfds =
      (if re.maxfds = 0 then DEFAULT_MAXFDS else re.maxfds) ∧
    (fd_setsize re DEFAULT_MAXFDS).2.fhl = re.fhl := by
  rw [fd_setsize_default]
  by_cases hz : re.maxfds = 0 <;>
    simp [hz, SetupPres, DEFAULT_MAXFDS, listO]

theorem poll_setup_eq_null (re : Re) (hm : re.method = .null) :
    poll_setup re =
      (0, (poll_init (poll_method_set (fd_setsize re DEFAULT_MAXFDS).2 .epoll).2).2) := by
  obtain ⟨b1, b2, b3, b4, b5, b6, b7, b8⟩ := fd_setsize_default_spec re
  obtain ⟨a1, a2, a3, a4, a5, a6, a7⟩ := poll_method_set_epoll_spec _ b6
  have hM : (poll_method_set (fd_setsize re DEFAULT_MAXFDS).2 PollMethod.epoll).2.maxfds ≠ 0 := by
    rw [a6]; exact b6
  obtain ⟨e1, p1, s1, m1, x1, f1, q1, d1, k1⟩ := poll_init_spec _ hM
  unfold poll_setup
  simp only [poll_method_best, b1, b3, hm, a1, e1, ite_true, ite_false]
  norm_num

theorem poll_setup_eq_nonnull (re : Re) (hm : re.method ≠ .null) :
    poll_setup re = (0, (poll_init (fd_setsize re DEFAULT_MAXFDS).2).2) := by
  obtain ⟨b1, b2, b3, b4, b5, b6, b7, b8⟩ := fd_setsize_default_spec re
  obtain ⟨e1, p1, s1, m1, x1, f1, q1, d1, k1⟩ := poll_init_spec _ b6
  simp [poll_setup, b1, b3, e1, hm]

theorem poll_setup_spec (re : Re) :
    (poll_setup re).1 = 0 ∧
    SetupPres re (poll_setup re).2 ∧
    (poll_setup re).2.fhl.isSome = true ∧
    (poll_setup re).2.method ≠ .null ∧
    ((poll_setup re).2.method = .epoll → 0 ≤ (poll_setup re).2.epfd) ∧
    (re.method ≠ .null → (poll_setup re).2.method = re.method) ∧
    (poll_setup re).2.maxfds =
      (if re.maxfds = 0 then DEFAULT_MAXFDS else re.maxfds) ∧
    ((poll_setup re).2.method = .poll → (poll_setup re).2.fds.isSome = true) ∧
    (re.fds.isSome = true → (poll_setup re).2.fds = re.fds) := by
  obtain ⟨b1, b2, b3, b4, b5, b6, b7, b8⟩ := fd_setsize_default_spec re
  by_cases hm : re.method = PollMethod.null
  · obtain ⟨a1, a2, a3, a4, a5, a6, a7⟩ := poll_method_set_epoll_spec _ b6
    have hM : (poll_method_set (fd_setsize re DEFAULT_MAXFDS).2 PollMethod.epoll).2.maxfds ≠ 0 := by
      rw [a6]; exact b6
    obtain ⟨e1, p1, s1, m1, x1, f1, q1, d1, k1⟩ := poll_init_spec _ hM
    rw [poll_setup_eq_null re hm]
    refine ⟨rfl, ?_, s1, ?_, ?_, ?_, ?_, ?_, ?_⟩
    · exact setupPres_trans b2 (setupPres_trans a2 p1)
    · rw [m1, a4]; intro hc; cases hc
    · intro _; exact f1 a4
    · intro hc; exact absurd hm hc
    · rw [x1, a6, b7]
    · rw [m1, a4]; intro hc; cases hc
    · intro hfds
      rw [k1 (by rw [a7 (by rw [b4]; exact hfds)]; rw [b4]; exact hfds),
          a7 (by rw [b4]; exact hfds), b4]
  · obtain ⟨e1, p1, s1, m1, x1, f1, q1, d1, k1⟩ := poll_init_spec _ b6
    rw [poll_setup_eq_nonnull re hm]
    refine ⟨rfl, ?_, s1, ?_, ?_, ?_, ?_, ?_, ?_⟩
    · exact setupPres_trans b2 p1
    · rw [m1, b3]; exact hm
    · intro h2; refine f1 ?_; rw [b3]; rw [m1, b3] at h2; exact h2
    · intro _; rw [m1, b3]
    · rw [x1, b7]
    · intro h2; refine d1 ?_; rw [b3]; rw [m1, b3] at h2; exact h2
    · intro hfds
      rw [k1 (by rw [b4]; exact hfds), b4]

@[simp] theorem listO_some (l : List Fhs) : listO (some l) = l := rfl
@[simp] theorem listO_none : listO none = [] := rfl
@[simp] theorem fhl_lookup_some (l : List Fhs) (fd : Int) :
    fhl_lookup (some l) fd = findFd l fd := rfl
@[simp] theorem fhl_lookup_none (fd : Int) : fhl_lookup none fd = none := rfl
@[simp] theorem fhl_set_some (l : List Fhs) (fd : Int) (g : Fhs) :
    fhl_set (some l) fd g = some (setFd l fd g) := rfl
@[simp] theorem fhl_set_none (fd : Int) (g : Fhs) : fhl_set none fd g = none := rfl
@[simp] theorem fhl_set_index_some (l : List Fhs) (fd i : Int) :
    fhl_set_index (some l) fd i = some (setIdx l fd i) := rfl
@[simp] theorem fhl_set_index_none (fd i : Int) : fhl_set_index none fd i = none := rfl
@[simp] theorem fhl_remove_some (l : List Fhs) (fd : Int) :
    fhl_remove (some l) fd = some (removeFd l fd) := rfl
@[simp] theorem fhl_remove_none (fd : Int) : fhl_remove none fd = none := rfl
@[simp] theorem fhl_append_some (l : List Fhs) (g : Fhs) :
    fhl_append (some l) g = some (l ++ [g]) := rfl
@[simp] theorem fhl_append_none (g : Fhs) : fhl_append none g = none := rfl
@[simp] theorem countActiveO_some (l : List Fhs) : countActiveO (some l) = countActive l := rfl
@[simp] theorem countActiveO_none : countActiveO none = 0 := rfl

theorem set_poll_fds_state (re : Re) (g : Fhs) :
    (set_poll_fds re g).2 = { re with fds := (set_poll_fds re g).2.fds } := by
  unfold set_poll_fds
  rcases hf : re.fds with _ | a
  · rfl
  · by_cases h1 : re.maxfds ≤ g.index
    · simp [h1]
    · by_cases h2 : g.index < 0
      · simp [h1, h2]
      · simp [h1, h2]

/-- `fhs_update` followed by the deregistration block preserves the
registry invariant.  `rr` is the state reaching the block: it carries the
updated registry and counter (the backend write in between only touches
the `pollfd` array). -/
theorem fd_listen_dereg_wf (s2 rr : Re) (fd : Int) (flags : Nat)
    (fh : Option Nat) (arg : Nat) (err : Int) (hwf : re_wf s2)
    (hsome : flags = 0 ∨ s2.fhl.isSome = true)
    (h1 : rr.fhl = (fhs_update s2 fd flags fh arg).1.fhl)
    (h2 : rr.nfds = (fhs_update s2 fd flags fh arg).1.nfds)
    (h3 : rr.method = s2.method) (h4 : rr.epfd = s2.epfd) :
    re_wf (fd_listen_dereg rr fd flags err).2.1 := by
  obtain ⟨w1, w2, w3⟩ := hwf
  have w3' : rr.method = PollMethod.epoll → 0 ≤ rr.epfd := by
    intro hx; rw [h4]; exact w3 (h3 ▸ hx)
  unfold fhs_update at h1 h2
  rcases hfl : s2.fhl with _ | l
  · rw [hfl] at h1 h2
    simp only [fhl_lookup_none, fhl_append_none] at h1 h2
    have hn0 : s2.nfds = 0 := by
      rw [w1, hfl]; rfl
    rcases hsome with hf0 | hbad
    · unfold fd_listen_dereg
      simp only [hf0, ite_true, if_true]
      split
      · refine ⟨?_, ?_, w3'⟩
        · simp [h1, h2, hn0]
        · simp [h1]
      · refine ⟨?_, ?_, ?_⟩ <;> split <;> simp_all [h1, h2, hn0]
    · rw [hfl] at hbad; cases hbad
  · rw [hfl] at h1 h2
    simp only [fhl_lookup_some] at h1 h2
    have w1' : s2.nfds = countActive l := by rw [w1, hfl]; rfl
    rcases hfind : findFd l fd with _ | g
    · rw [hfind] at h1 h2
      simp only [fhl_append_some] at h1 h2
      have hrem : removeFd (l ++ [(⟨s2.nfds, fd, flags, fh, arg⟩ : Fhs)]) fd = l :=
        removeFd_append_of_none hfind rfl
      have hsi : setIdx (l ++ [(⟨s2.nfds, fd, flags, fh, arg⟩ : Fhs)]) fd (-1) =
          l ++ [(⟨-1, fd, flags, fh, arg⟩ : Fhs)] :=
        setIdx_append_of_none hfind rfl (-1)
      by_cases hf0 : flags = 0
      · unfold fd_listen_dereg
        simp only [hf0, ite_true, if_true]
        split
        · refine ⟨?_, ?_, w3'⟩
          · simp only [h1, fhl_remove_some, countActiveO_some, hrem]
            omega
          · intro x hx
            simp only [h1, fhl_remove_some, listO_some, hrem] at hx
            exact w2 x (by rw [hfl]; simpa using hx)
        · have hcnt : countActive (l ++ [(⟨-1, fd, flags, fh, arg⟩ : Fhs)]) =
              countActive l := by
            rw [countActive_append]
            simp [activeBit, hf0]
          have hmem : ∀ x ∈ l ++ [(⟨-1, fd, flags, fh, arg⟩ : Fhs)],
              (x.flags = 0 ↔ x.index = -1) := by
            intro x hx
            rcases List.mem_append.mp hx with hx2 | hx2
            · exact w2 x (by rw [hfl]; simpa using hx2)
            · simp at hx2
              simp [hx2, hf0]
          refine ⟨?_, ?_, ?_⟩ <;> split <;>
            simp_all [h1, h2, hsi]
      · unfold fd_listen_dereg
        simp only [hf0, ite_false, if_false]
        refine ⟨?_, ?_, w3'⟩
        · simp only [h1, h2, countActiveO_some, countActive_append]
          simp [activeBit, hf0, w1']
        · intro x hx
          simp only [h1, listO_some] at hx
          rcases List.mem_append.mp hx with hx2 | hx2
          · exact w2 x (by rw [hfl]; simpa using hx2)
          · simp at hx2
            subst hx2
            have hnn := countActive_nonneg l
            constructor
            · intro hc; exact absurd hc hf0
            · intro hc; simp at hc; omega
    · rw [hfind] at h1 h2
      have hgmem := findFd_mem hfind
      have hgiff := w2 g (by rw [hfl]; simpa using hgmem.1)
      by_cases hidx : g.index = -1
      · have hgfl : g.flags = 0 := hgiff.mpr hidx
        simp only [hidx, ite_true, if_true, fhl_set_some] at h1 h2
        have hrem : removeFd (setFd l fd (⟨s2.nfds, fd, flags, fh, arg⟩ : Fhs)) fd =
            removeFd l fd := removeFd_setFd l rfl
        have hsi : setIdx (setFd l fd (⟨s2.nfds, fd, flags, fh, arg⟩ : Fhs)) fd (-1) =
            setFd l fd (⟨-1, fd, flags, fh, arg⟩ : Fhs) := setIdx_setFd l (-1) rfl
        have hcr := countActive_removeFd_found hfind
        have hcs := countActive_setFd_found hfind (⟨-1, fd, flags, fh, arg⟩ : Fhs)
        by_cases hf0 : flags = 0
        · unfold fd_listen_dereg
          simp only [hf0, ite_true, if_true]
          split
          · refine ⟨?_, ?_, w3'⟩
            · simp only [activeBit, hgfl, ite_true, if_true] at hcr
              simp only [h1, h2, fhl_remove_some, countActiveO_some, hrem, hcr]
              omega
            · intro x hx
              simp only [h1, fhl_remove_some, listO_some, hrem] at hx
              exact w2 x (by rw [hfl]; exact mem_removeFd hx)
          · have hcnt : countActive (setFd l fd (⟨-1, fd, flags, fh, arg⟩ : Fhs)) =
                countActive l := by
              rw [hcs]
              simp [activeBit, hgfl, hf0]
            have hmem : ∀ x ∈ setFd l fd (⟨-1, fd, flags, fh, arg⟩ : Fhs),
                (x.flags = 0 ↔ x.index = -1) := by
              intro x hx
              rcases mem_setFd hx with hx2 | hx2
              · exact w2 x (by rw [hfl]; exact hx2)
              · simp [hx2, hf0]
            refine ⟨?_, ?_, ?_⟩ <;> split <;>
              simp_all [h1, h2, hsi]
        · unfold fd_listen_dereg
          simp only [hf0, ite_false, if_false]
          refine ⟨?_, ?_, w3'⟩
          · have hcs2 := countActive_setFd_found hfind (⟨s2.nfds, fd, flags, fh, arg⟩ : Fhs)
            simp only [activeBit, hgfl, hf0, ite_true, if_true, ite_false, if_false] at hcs2
            simp only [h1, h2, countActiveO_some, hcs2]
            omega
          · intro x hx
            simp only [h1, listO_some] at hx
            rcases mem_setFd hx with hx2 | hx2
            · exact w2 x (by rw [hfl]; exact hx2)
            · subst hx2
              have hnn := countActive_nonneg l
              constructor
              · intro hc; exact absurd hc hf0
              · intro hc; simp at hc; omega
      · have hgfl : g.flags ≠ 0 := fun h0 => hidx (hgiff.mp h0)
        simp only [hidx, ite_false, if_false, fhl_set_some] at h1 h2
        have hrem : removeFd (setFd l fd (⟨g.index, fd, flags, fh, arg⟩ : Fhs)) fd =
            removeFd l fd := removeFd_setFd l rfl
        have hsi : setIdx (setFd l fd (⟨g.index, fd, flags, fh, arg⟩ : Fhs)) fd (-1) =
            setFd l fd (⟨-1, fd, flags, fh, arg⟩ : Fhs) := setIdx_setFd l (-1) rfl
        have hcr := countActive_removeFd_found hfind
        have hcs := countActive_setFd_found hfind (⟨-1, fd, flags, fh, arg⟩ : Fhs)
        by_cases hf0 : flags = 0
        · unfold fd_listen_dereg
          simp only [hf0, ite_true, if_true]
          split
          · refine ⟨?_, ?_, w3'⟩
            · simp only [activeBit, hgfl, ite_false, if_false] at hcr
              simp only [h1, h2, fhl_remove_some, countActiveO_some, hrem, hcr]
              omega
            · intro x hx
              simp only [h1, fhl_remove_some, listO_some, hrem] at hx
              exact w2 x (by rw [hfl]; exact mem_removeFd hx)
          · have hcnt : countActive (setFd l fd (⟨-1, fd, flags, fh, arg⟩ : Fhs)) =
                countActive l - 1 := by
              rw [hcs]
              simp [activeBit, hgfl, hf0]
              omega
            have hmem : ∀ x ∈ setFd l fd (⟨-1, fd, flags, fh, arg⟩ : Fhs),
                (x.flags = 0 ↔ x.index = -1) := by
              intro x hx
              rcases mem_setFd hx with hx2 | hx2
              · exact w2 x (by rw [hfl]; exact hx2)
              · simp [hx2, hf0]
            refine ⟨?_, ?_, ?_⟩ <;> split <;>
              simp_all [h1, h2, hsi]
        · unfold fd_listen_dereg
          simp only [hf0, ite_false, if_false]
          refine ⟨?_, ?_, w3'⟩
          · have hcs2 := countActive_setFd_found hfind (⟨g.index, fd, flags, fh, arg⟩ : Fhs)
            simp only [activeBit, hgfl, hf0, ite_false, if_false] at hcs2
            simp only [h1, h2, countActiveO_some, hcs2]
            omega
          · intro x hx
            simp only [h1, listO_some] at hx
            rcases mem_setFd hx with hx2 | hx2
            · exact w2 x (by rw [hfl]; exact hx2)
            · subst hx2
              constructor
              · intro hc; exact absurd hc hf0
              · intro hc; simp at hc; exact absurd hc hidx

theorem fhs_update_fields (s : Re) (fd : Int) (flags : Nat) (fh : Option Nat)
    (arg : Nat) :
    (fhs_update s fd flags fh arg).1.method = s.method ∧
    (fhs_update s fd flags fh arg).1.epfd = s.epfd ∧
    (fhs_update s fd flags fh arg).1.fhs_reuse = s.fhs_reuse ∧
    (fhs_update s fd flags fh arg).1.polling = s.polling ∧
    (fhs_update s fd flags fh arg).1.tid = s.tid ∧
    (fhs_update s fd flags fh arg).1.thread_enter = s.thread_enter ∧
    (fhs_update s fd flags fh arg).1.fds = s.fds ∧
    (fhs_update s fd flags fh arg).1.maxfds = s.maxfds := by
  unfold fhs_update
  rcases hq : fhl_lookup s.fhl fd with _ | g
  · simp
  · simp only []
    split <;> simp

theorem fd_listen_post_wf (s2 rr : Re) (fd : Int) (flags : Nat)
    (fh : Option Nat) (arg : Nat) (err : Int) (hwf : re_wf s2)
    (hsome : flags = 0 ∨ s2.fhl.isSome = true)
    (h1 : rr.fhl = (fhs_update s2 fd flags fh arg).1.fhl)
    (h2 : rr.nfds = (fhs_update s2 fd flags fh arg).1.nfds)
    (h3 : rr.method = s2.method) (h4 : rr.epfd = s2.epfd) :
    re_wf (fd_listen_post rr fd flags err).2.1 := by
  unfold fd_listen_post
  by_cases he : err = 0
  · rw [if_pos he]
    exact fd_listen_dereg_wf s2 _ fd flags fh arg err hwf hsome
      (by simpa using h1) (by simpa using h2) (by simpa using h3)
      (by simpa using h4)
  · rw [if_neg he]
    exact fd_listen_dereg_wf s2 rr fd flags fh arg err hwf hsome h1 h2 h3 h4

theorem fd_listen_switch_wf (s2 : Re) (fd : Int) (flags : Nat)
    (fh : Option Nat) (arg : Nat) (hwf : re_wf s2)
    (hsome : flags = 0 ∨ s2.fhl.isSome = true) :
    re_wf (fd_listen_switch s2 fd flags fh arg).2.1 := by
  obtain ⟨fm, fe, pr, pp, pt, pte2, pfds, pmx⟩ := fhs_update_fields s2 fd flags fh arg
  have hguard : ¬((fhs_update s2 fd flags fh arg).1.method = .epoll ∧
      (fhs_update s2 fd flags fh arg).1.epfd < 0) := by
    rintro ⟨hm', hl'⟩
    rw [fm] at hm'
    rw [fe] at hl'
    exact absurd hl' (not_lt.mpr (hwf.2.2 hm'))
  unfold fd_listen_switch
  simp only [if_neg hguard]
  rcases hmm : (fhs_update s2 fd flags fh arg).1.method <;> simp only [hmm]
  · exact fd_listen_post_wf s2 _ fd flags fh arg _ hwf hsome rfl rfl fm fe
  · have hst := set_poll_fds_state (fhs_update s2 fd flags fh arg).1
      (fhs_update s2 fd flags fh arg).2
    refine fd_listen_post_wf s2 _ fd flags fh arg _ hwf hsome ?_ ?_ ?_ ?_
    · rw [hst]
    · rw [hst]
    · rw [hst]; exact fm
    · rw [hst]; exact fe
  · exact fd_listen_post_wf s2 _ fd flags fh arg _ hwf hsome rfl rfl fm fe
  · have hne : ¬ (fhs_update s2 fd flags fh arg).1.epfd < 0 := by
      rw [fe]
      exact not_lt.mpr (hwf.2.2 (by rw [fm] at hmm; exact hmm))
    unfold set_epoll_fds
    rw [if_neg hne]
    exact fd_listen_post_wf s2 _ fd flags fh arg _ hwf hsome rfl rfl fm fe
  · unfold set_kqueue_fds
    exact fd_listen_post_wf s2 _ fd flags fh arg _ hwf hsome rfl rfl fm fe

theorem fd_listen_core_wf (re : Re) (cur : Nat) (fd : Int) (flags : Nat)
    (fh : Option Nat) (arg : Nat) (h : re_wf re) :
    re_wf (fd_listen_core re cur fd flags fh arg).2.1 := by
  obtain ⟨e1, hpres, pis, pnn, pep, pmm, pmxf, ppf, pfdk⟩ := poll_setup_spec re
  obtain ⟨pn, pl, prr, ppl, ptid, pte, pmx, pfd2, psg, pmh⟩ := hpres
  have hwfS : re_wf (poll_setup re).2 := by
    obtain ⟨w1, w2, w3⟩ := h
    refine ⟨?_, ?_, pep⟩
    · rw [pn, w1]
      unfold countActiveO
      rw [pl]
    · intro g hg
      rw [pl] at hg
      exact w2 g hg
  unfold fd_listen_core
  by_cases hc : re_thread_check re cur ≠ 0
  · rw [if_pos hc]
    exact h
  rw [if_neg hc]
  by_cases hb : fd = BAD_SOCK
  · rw [if_pos hb]
    exact h
  rw [if_neg hb]
  by_cases hps : flags ≠ 0 ∨ fh.isSome = true
  · rw [if_pos hps, if_neg (by rw [e1]; exact fun hx => hx rfl)]
    exact fd_listen_switch_wf _ fd flags fh arg hwfS (Or.inr pis)
  · rw [if_neg hps, if_neg (by exact fun hx => hx rfl)]
    have hf0 : flags = 0 := by
      by_contra hne
      exact hps (Or.inl hne)
    exact fd_listen_switch_wf _ fd flags fh arg h (Or.inl hf0)

theorem fd_listen_wf (re : Re) (cur : Nat) (fd : Int) (flags : Nat)
    (fh : Option Nat) (arg : Nat) (h : re_wf re) :
    re_wf (fd_listen re cur fd flags fh arg).2 := by
  unfold fd_listen
  dsimp only
  split
  · exact fd_listen_core_wf _ cur fd 0 none 0
      (fd_listen_core_wf re cur fd flags fh arg h)
  · exact fd_listen_core_wf re cur fd flags fh arg h

theorem run_ops_wf (ops : List FdOp) (re : Re) (h : re_wf re) :
    re_wf (run_ops re ops) := by
  induction ops generalizing re with
  | nil => exact h
  | cons op t ih =>
    exact ih _ (fd_listen_wf re op.cur op.fd op.flags op.fh op.arg h)

/-! ### Execution-trace lemmas for the round-trip and index claims -/

theorem fhl_lookup_eq_findFd_listO (o : Option (List Fhs)) (fd : Int) :
    fhl_lookup o fd = findFd (listO o) fd := by
  cases o <;> rfl

theorem fhs_update_nfds (s : Re) (fd : Int) (flags : Nat) (fh : Option Nat)
    (arg : Nat) :
    (fhs_update s fd flags fh arg).1.nfds =
      s.nfds + (match fhl_lookup s.fhl fd with
                | some g => if g.index = -1 then 1 else 0
                | none => 1) := by
  unfold fhs_update
  rcases hq : fhl_lookup s.fhl fd with _ | g
  · simp
  · simp only []
    split <;> simp

theorem fhs_update_lookup (s : Re) (fd : Int) (flags : Nat) (fh : Option Nat)
    (arg : Nat) (hs : s.fhl.isSome = true) :
    fhl_lookup (fhs_update s fd flags fh arg).1.fhl fd =
      some ⟨(match fhl_lookup s.fhl fd with
             | some g => if g.index = -1 then s.nfds else g.index
             | none => s.nfds), fd, flags, fh, arg⟩ := by
  rcases hfl : s.fhl with _ | l
  · rw [hfl] at hs; cases hs
  · unfold fhs_update
    rw [hfl]
    rcases hq : findFd l fd with _ | g
    · simp only [fhl_lookup_some, hq, fhl_append_some]
      exact findFd_append_of_none hq rfl
    · simp only [fhl_lookup_some, hq]
      split <;> simp only [fhl_set_some, fhl_lookup_some] <;>
        exact findFd_setFd hq rfl

theorem fd_listen_dereg_fields (rr : Re) (fd : Int) (flags : Nat) (err : Int) :
    (fd_listen_dereg rr fd flags err).2.1.method = rr.method ∧
    (fd_listen_dereg rr fd flags err).2.1.epfd = rr.epfd ∧
    (fd_listen_dereg rr fd flags err).2.1.tid = rr.tid ∧
    (fd_listen_dereg rr fd flags err).2.1.thread_enter = rr.thread_enter ∧
    (fd_listen_dereg rr fd flags err).2.1.polling = rr.polling ∧
    (fd_listen_dereg rr fd flags err).2.1.fhs_reuse = rr.fhs_reuse ∧
    (fd_listen_dereg rr fd flags err).2.1.maxfds = rr.maxfds ∧
    (fd_listen_dereg rr fd flags err).2.1.fds = rr.fds ∧
    (fd_listen_dereg rr fd flags err).1 = err := by
  unfold fd_listen_dereg
  split
  · split
    · simp
    · split <;> simp
  · simp

theorem fd_listen_post_fields (rr : Re) (fd : Int) (flags : Nat) (err : Int) :
    (fd_listen_post rr fd flags err).2.1.method = rr.method ∧
    (fd_listen_post rr fd flags err).2.1.epfd = rr.epfd ∧
    (fd_listen_post rr fd flags err).2.1.tid = rr.tid ∧
    (fd_listen_post rr fd flags err).2.1.thread_enter = rr.thread_enter ∧
    (fd_listen_post rr fd flags err).2.1.polling = rr.polling ∧
    (fd_listen_post rr fd flags err).2.1.fhs_reuse = rr.fhs_reuse ∧
    (fd_listen_post rr fd flags err).2.1.maxfds = rr.maxfds ∧
    (fd_listen_post rr fd flags err).2.1.fds = rr.fds ∧
    (fd_listen_post rr fd flags err).1 = err := by
  unfold fd_listen_post
  by_cases he : err = 0
  · rw [if_pos he]
    simpa using fd_listen_dereg_fields _ fd flags err
  · rw [if_neg he]
    exact fd_listen_dereg_fields rr fd flags err

theorem fd_listen_post_nfds_dereg (rr : Re) (fd : Int) (err : Int) :
    (fd_listen_post rr fd 0 err).2.1.nfds = rr.nfds - 1 := by
  unfold fd_listen_post fd_listen_dereg
  by_cases he : err = 0
  · rw [if_pos he, if_pos rfl]
    split
    · simp
    · split <;> simp
  · rw [if_neg he, if_pos rfl]
    split
    · simp
    · split <;> simp

theorem fd_listen_post_reg (rr : Re) (fd : Int) (flags : Nat) (err : Int)
    (hf : flags ≠ 0) :
    fd_listen_post rr fd flags err =
      (err, (if err = 0 then { rr with max_fd := max rr.max_fd (fd + 1) } else rr),
       true) := by
  unfold fd_listen_post fd_listen_dereg
  by_cases he : err = 0
  · rw [if_pos he, if_neg hf]
  · rw [if_neg he, if_neg hf]

/-! ### Key uniqueness of the registry

The hash keeps at most one record per handle value: a record is inserted
only when lookup fails.  `re_nodup` captures this and is preserved by
`fd_listen`. -/

def re_nodup (re : Re) : Prop :=
  ((listO re.fhl).map (fun g => g.fd)).Nodup

instance (re : Re) : Decidable (re_nodup re) := by
  unfold re_nodup; infer_instance

theorem setFd_map_fd {g' : Fhs} {fd : Int} (l : List Fhs) (h : g'.fd = fd) :
    (setFd l fd g').map (fun x => x.fd) = l.map (fun x => x.fd) := by
  induction l with
  | nil => rfl
  | cons a t ih =>
    by_cases ha : a.fd = fd
    · simp [setFd, ha, h]
    · simp [setFd, ha, ih]

theorem setIdx_map_fd (l : List Fhs) (fd i : Int) :
    (setIdx l fd i).map (fun x => x.fd) = l.map (fun x => x.fd) := by
  induction l with
  | nil => rfl
  | cons a t ih =>
    by_cases ha : a.fd = fd
    · simp [setIdx, ha]
    · simp [setIdx, ha, ih]

theorem removeFd_sublist (l : List Fhs) (fd : Int) :
    List.Sublist (removeFd l fd) l := by
  induction l with
  | nil => simp [removeFd]
  | cons a t ih =>
    by_cases ha : a.fd = fd
    · simp only [removeFd, if_pos ha]
      exact List.Sublist.cons a (List.Sublist.refl t)
    · simp only [removeFd, if_neg ha]
      exact List.Sublist.cons₂ a ih

theorem findFd_none_not_mem {l : List Fhs} {fd : Int}
    (h : findFd l fd = none) : ∀ x ∈ l, x.fd ≠ fd := by
  induction l with
  | nil => intro x hx; cases hx
  | cons a t ih =>
    simp only [findFd] at h
    by_cases ha : a.fd = fd
    · simp [ha] at h
    · simp [ha] at h
      intro x hx
      rcases List.mem_cons.mp hx with hx2 | hx2
      · rw [hx2]; exact ha
      · exact ih h x hx2

theorem findFd_removeFd_none {l : List Fhs} {fd : Int}
    (h : (l.map (fun x => x.fd)).Nodup) : findFd (removeFd l fd) fd = none := by
  induction l with
  | nil => rfl
  | cons a t ih =>
    simp only [List.map_cons, List.nodup_cons] at h
    by_cases ha : a.fd = fd
    · simp only [removeFd, if_pos ha]
      rcases hq : findFd t fd with _ | g
      · rfl
      · obtain ⟨hm, hfd⟩ := findFd_mem hq
        have hmem : fd ∈ t.map (fun x => x.fd) := List.mem_map.mpr ⟨g, hm, hfd⟩
        rw [ha] at h
        exact absurd hmem h.1
    · simp only [removeFd, if_neg ha, findFd, if_neg ha]
      exact ih h.2

theorem findFd_append_none_of_none {l : List Fhs} {fd : Int} {g' : Fhs}
    (h : findFd l fd = none) (hne : g'.fd ≠ fd) :
    findFd (l ++ [g']) fd = none := by
  induction l with
  | nil => simp [findFd, hne]
  | cons a t ih =>
    simp only [findFd] at h ⊢
    by_cases ha : a.fd = fd
    · simp [ha] at h
    · simp only [if_neg ha] at h ⊢
      exact ih h

theorem findFd_setIdx (l : List Fhs) (fd i : Int) :
    findFd (setIdx l fd i) fd =
      (findFd l fd).map (fun g => { g with index := i }) := by
  induction l with
  | nil => rfl
  | cons a t ih =>
    by_cases ha : a.fd = fd
    · simp [setIdx, findFd, ha]
    · simp [setIdx, findFd, ha, ih]

theorem fd_listen_post_dereg_lookup (rr : Re) (fd : Int) (err : Int)
    (hnd : re_nodup rr) :
    ∀ g, fhl_lookup (fd_listen_post rr fd 0 err).2.1.fhl fd = some g →
      g.index = -1 := by
  have key : ∀ rr2 : Re, rr2.fhl = rr.fhl →
      ∀ g, fhl_lookup (fd_listen_dereg rr2 fd 0 err).2.1.fhl fd = some g →
        g.index = -1 := by
    intro rr2 hfl2 g hg
    unfold fd_listen_dereg at hg
    rw [if_pos rfl] at hg
    unfold re_nodup at hnd
    rcases hfl : rr.fhl with _ | l
    · rw [hfl] at hfl2
      split at hg
      · simp only [hfl2, fhl_remove_none, fhl_lookup_none] at hg
        cases hg
      · split at hg <;>
          simp only [hfl2, fhl_set_index_none, fhl_lookup_none] at hg <;>
            cases hg
    · rw [hfl] at hfl2 hnd
      simp only [listO_some] at hnd
      split at hg
      · simp only [hfl2, fhl_remove_some, fhl_lookup_some] at hg
        rw [findFd_removeFd_none hnd] at hg
        cases hg
      · split at hg <;>
          · simp only [hfl2, fhl_set_index_some, fhl_lookup_some,
              findFd_setIdx] at hg
            rcases hq : findFd l fd with _ | g0 <;> rw [hq] at hg
            · cases hg
            · simp at hg
              rw [← hg]
  unfold fd_listen_post
  by_cases he : err = 0
  · rw [if_pos he]
    exact key _ rfl
  · rw [if_neg he]
    exact key _ rfl

theorem fhs_update_nodup (s : Re) (fd : Int) (flags : Nat) (fh : Option Nat)
    (arg : Nat) (h : re_nodup s) :
    re_nodup (fhs_update s fd flags fh arg).1 := by
  unfold re_nodup at *
  unfold fhs_update
  rcases hfl : s.fhl with _ | l
  · simp [hfl]
  · rw [hfl] at h
    simp only [listO_some] at h
    rcases hq : findFd l fd with _ | g
    · simp only [hfl, fhl_lookup_some, hq, fhl_append_some, listO_some,
        List.map_append, List.map_cons, List.map_nil]
      rw [List.nodup_append]
      refine ⟨h, List.nodup_singleton _, ?_⟩
      intro x hx hy
      simp at hy
      subst hy
      obtain ⟨x0, hx0, hxeq⟩ := List.mem_map.mp hx
      exact findFd_none_not_mem hq x0 hx0 hxeq
    · simp only [hfl, fhl_lookup_some, hq]
      split
      · simp only [fhl_set_some, listO_some]
        rw [setFd_map_fd l (rfl : (⟨s.nfds, fd, flags, fh, arg⟩ : Fhs).fd = fd)]
        exact h
      · simp only [fhl_set_some, listO_some]
        rw [setFd_map_fd l (rfl : (⟨g.index, fd, flags, fh, arg⟩ : Fhs).fd = fd)]
        exact h

theorem fd_listen_dereg_nodup (rr : Re) (fd : Int) (flags : Nat) (err : Int)
    (h : re_nodup rr) : re_nodup (fd_listen_dereg rr fd flags err).2.1 := by
  unfold fd_listen_dereg
  split
  · split
    · unfold re_nodup at *
      rcases hfl : rr.fhl with _ | l
      · simp [hfl]
      · rw [hfl] at h
        simp only [listO_some] at h
        simp only [hfl, fhl_remove_some, listO_some]
        exact ((removeFd_sublist l fd).map _).nodup h
    · split <;>
        · unfold re_nodup at *
          rcases hfl : rr.fhl with _ | l
          · simp [hfl]
          · rw [hfl] at h
            simp only [listO_some] at h
            simp only [hfl, fhl_set_index_some, listO_some]
            rw [setIdx_map_fd]
            exact h
  · exact h

theorem fd_listen_post_nodup (rr : Re) (fd : Int) (flags : Nat) (err : Int)
    (h : re_nodup rr) : re_nodup (fd_listen_post rr fd flags err).2.1 := by
  unfold fd_listen_post
  by_cases he : err = 0
  · rw [if_pos he]
    exact fd_listen_dereg_nodup _ fd flags err h
  · rw [if_neg he]
    exact fd_listen_dereg_nodup _ fd flags err h

theorem fd_listen_switch_nodup (s2 : Re) (fd : Int) (flags : Nat)
    (fh : Option Nat) (arg : Nat) (h : re_nodup s2) :
    re_nodup (fd_listen_switch s2 fd flags fh arg).2.1 := by
  have hu := fhs_update_nodup s2 fd flags fh arg h
  unfold fd_listen_switch
  dsimp only
  split
  · exact hu
  · rcases hmm : (fhs_update s2 fd flags fh arg).1.method <;> simp only [hmm]
    · exact fd_listen_post_nodup _ fd flags _ hu
    · refine fd_listen_post_nodup _ fd flags _ ?_
      unfold re_nodup at hu ⊢
      rw [set_poll_fds_state]
      exact hu
    · exact fd_listen_post_nodup _ fd flags _ hu
    · unfold set_epoll_fds
      split
      · exact fd_listen_post_nodup _ fd flags _ hu
      · exact fd_listen_post_nodup _ fd flags _ hu
    · exact fd_listen_post_nodup _ fd flags _ hu

theorem fd_listen_core_nodup (re : Re) (cur : Nat) (fd : Int) (flags : Nat)
    (fh : Option Nat) (arg : Nat) (h : re_nodup re) :
    re_nodup (fd_listen_core re cur fd flags fh arg).2.1 := by
  obtain ⟨e1, hpres, pis, _⟩ := poll_setup_spec re
  have hS : re_nodup (poll_setup re).2 := by
    unfold re_nodup at *
    rw [hpres.2.1]
    exact h
  unfold fd_listen_core
  by_cases hc : re_thread_check re cur ≠ 0
  · rw [if_pos hc]; exact h
  rw [if_neg hc]
  by_cases hb : fd = BAD_SOCK
  · rw [if_pos hb]; exact h
  rw [if_neg hb]
  by_cases hps : flags ≠ 0 ∨ fh.isSome = true
  · rw [if_pos hps, if_neg (by rw [e1]; exact fun hx => hx rfl)]
    exact fd_listen_switch_nodup _ fd flags fh arg hS
  · rw [if_neg hps, if_neg (by exact fun hx => hx rfl)]
    exact fd_listen_switch_nodup _ fd flags fh arg h

theorem fd_listen_nodup (re : Re) (cur : Nat) (fd : Int) (flags : Nat)
    (fh : Option Nat) (arg : Nat) (h : re_nodup re) :
    re_nodup (fd_listen re cur fd flags fh arg).2 := by
  unfold fd_listen
  dsimp only
  split
  · exact fd_listen_core_nodup _ cur fd 0 none 0
      (fd_listen_core_nodup re cur fd flags fh arg h)
  · exact fd_listen_core_nodup re cur fd flags fh arg h

theorem fhs_update_guard (s2 : Re) (fd : Int) (flags : Nat) (fh : Option Nat)
    (arg : Nat) (hep : s2.method = .epoll → 0 ≤ s2.epfd) :
    ¬((fhs_update s2 fd flags fh arg).1.method = .epoll ∧
      (fhs_update s2 fd flags fh arg).1.epfd < 0) := by
  obtain ⟨fm, fe, _⟩ := fhs_update_fields s2 fd flags fh arg
  rintro ⟨hm', hl'⟩
  rw [fm] at hm'
  rw [fe] at hl'
  exact absurd hl' (not_lt.mpr (hep hm'))

theorem fd_listen_switch_fields (s2 : Re) (fd : Int) (flags : Nat)
    (fh : Option Nat) (arg : Nat) :
    (fd_listen_switch s2 fd flags fh arg).2.1.tid = s2.tid ∧
    (fd_listen_switch s2 fd flags fh arg).2.1.thread_enter = s2.thread_enter ∧
    (fd_listen_switch s2 fd flags fh arg).2.1.method = s2.method ∧
    (fd_listen_switch s2 fd flags fh arg).2.1.epfd = s2.epfd := by
  obtain ⟨fm, fe, pr, pp, pt, pte2, pfds, pmx⟩ := fhs_update_fields s2 fd flags fh arg
  have key : ∀ (b2 : Re) (e : Int),
      b2.tid = s2.tid → b2.thread_enter = s2.thread_enter →
      b2.method = s2.method → b2.epfd = s2.epfd →
      ((fd_listen_post b2 fd flags e).2.1.tid = s2.tid ∧
       (fd_listen_post b2 fd flags e).2.1.thread_enter = s2.thread_enter ∧
       (fd_listen_post b2 fd flags e).2.1.method = s2.method ∧
       (fd_listen_post b2 fd flags e).2.1.epfd = s2.epfd) := by
    intro b2 e k1 k2 k3 k4
    obtain ⟨q1, q2, q3, q4, _⟩ := fd_listen_post_fields b2 fd flags e
    refine ⟨?_, ?_, ?_, ?_⟩
    · rw [q3, k1]
    · rw [q4, k2]
    · rw [q1, k3]
    · rw [q2, k4]
  unfold fd_listen_switch
  dsimp only
  split
  · exact ⟨pt, pte2, fm, fe⟩
  · rcases hmm : (fhs_update s2 fd flags fh arg).1.method <;> simp only [hmm]
    · exact key _ _ pt pte2 fm fe
    · have hst := set_poll_fds_state (fhs_update s2 fd flags fh arg).1
        (fhs_update s2 fd flags fh arg).2
      refine key _ _ ?_ ?_ ?_ ?_ <;> rw [hst]
      · exact pt
      · exact pte2
      · exact fm
      · exact fe
    · exact key _ _ pt pte2 fm fe
    · unfold set_epoll_fds
      split
      · exact key _ _ pt pte2 fm fe
      · exact key _ _ pt pte2 fm fe
    · exact key _ _ pt pte2 fm fe

theorem fd_listen_switch_dereg_spec (s2 : Re) (fd : Int) (fh' : Option Nat)
    (arg' : Nat) (hep : s2.method = .epoll → 0 ≤ s2.epfd) (hnd : re_nodup s2) :
    (fd_listen_switch s2 fd 0 fh' arg').2.1.nfds =
      s2.nfds + (match fhl_lookup s2.fhl fd with
                 | some g => if g.index = -1 then 0 else (-1 : Int)
                 | none => 0) ∧
    (∀ g, fhl_lookup (fd_listen_switch s2 fd 0 fh' arg').2.1.fhl fd = some g →
        g.index = -1) := by
  have hnd1 := fhs_update_nodup s2 fd 0 fh' arg' hnd
  have key : ∀ (b2 : Re) (e : Int),
      b2.fhl = (fhs_update s2 fd 0 fh' arg').1.fhl →
      b2.nfds = (fhs_update s2 fd 0 fh' arg').1.nfds →
      ((fd_listen_post b2 fd 0 e).2.1.nfds =
        s2.nfds + (match fhl_lookup s2.fhl fd with
                   | some g => if g.index = -1 then 0 else (-1 : Int)
                   | none => 0) ∧
       (∀ g, fhl_lookup (fd_listen_post b2 fd 0 e).2.1.fhl fd = some g →
          g.index = -1)) := by
    intro b2 e hb1 hb2
    constructor
    · rw [fd_listen_post_nfds_dereg, hb2, fhs_update_nfds]
      rcases hq : fhl_lookup s2.fhl fd with _ | g
      · simp
      · by_cases hgi : g.index = -1 <;> simp [hgi] <;> omega
    · refine fd_listen_post_dereg_lookup b2 fd e ?_
      unfold re_nodup at hnd1 ⊢
      rw [hb1]
      exact hnd1
  unfold fd_listen_switch
  dsimp only
  rw [if_neg (fhs_update_guard s2 fd 0 fh' arg' hep)]
  rcases hmm : (fhs_update s2 fd 0 fh' arg').1.method <;> simp only [hmm]
  · exact key _ _ rfl rfl
  · have hst := set_poll_fds_state (fhs_update s2 fd 0 fh' arg').1
      (fhs_update s2 fd 0 fh' arg').2
    refine key _ _ ?_ ?_ <;> rw [hst]
  · exact key _ _ rfl rfl
  · unfold set_epoll_fds
    split
    · exact key _ _ rfl rfl
    · exact key _ _ rfl rfl
  · exact key _ _ rfl rfl

theorem fd_listen_core_dereg_spec (rr : Re) (cur : Nat) (fd : Int)
    (fh' : Option Nat) (arg' : Nat)
    (hch : re_thread_check rr cur = 0) (hbs : fd ≠ BAD_SOCK)
    (hep : rr.method = .epoll → 0 ≤ rr.epfd) (hnd : re_nodup rr) :
    (fd_listen_core rr cur fd 0 fh' arg').2.1.nfds =
      rr.nfds + (match fhl_lookup rr.fhl fd with
                 | some g => if g.index = -1 then 0 else (-1 : Int)
                 | none => 0) ∧
    (∀ g, fhl_lookup (fd_listen_core rr cur fd 0 fh' arg').2.1.fhl fd = some g →
        g.index = -1) := by
  obtain ⟨e1, hpres, pis, pnn, pep, _⟩ := poll_setup_spec rr
  unfold fd_listen_core
  rw [if_neg (fun hx => hx hch), if_neg hbs]
  dsimp only
  by_cases hf : fh'.isSome = true
  · rw [if_pos (Or.inr hf), if_neg (by rw [e1]; exact fun hx => hx rfl)]
    have hlk : fhl_lookup (poll_setup rr).2.fhl fd = fhl_lookup rr.fhl fd := by
      rw [fhl_lookup_eq_findFd_listO, fhl_lookup_eq_findFd_listO, hpres.2.1]
    have hnd2 : re_nodup (poll_setup rr).2 := by
      unfold re_nodup
      rw [hpres.2.1]
      exact hnd
    obtain ⟨c1, c2⟩ := fd_listen_switch_dereg_spec (poll_setup rr).2 fd fh' arg' pep hnd2
    rw [hlk, hpres.1] at c1
    exact ⟨c1, c2⟩
  · have hcond : ¬((0 : Nat) ≠ 0 ∨ fh'.isSome = true) := by
      rintro (h0 | hs)
      · exact h0 rfl
      · exact hf hs
    rw [if_neg hcond, if_neg (by exact fun hx => hx rfl)]
    exact fd_listen_switch_dereg_spec rr fd fh' arg' hep hnd

theorem fd_listen_zero (re : Re) (cur : Nat) (fd : Int) (fh : Option Nat)
    (arg : Nat) :
    fd_listen re cur fd 0 fh arg =
      ((fd_listen_core re cur fd 0 fh arg).1,
       (fd_listen_core re cur fd 0 fh arg).2.1) := by
  unfold fd_listen
  dsimp only
  rw [if_neg (by rintro ⟨_, _, hx⟩; exact hx rfl)]

theorem re_thread_check_congr (a b : Re) (cur : Nat)
    (h1 : a.thread_enter = b.thread_enter) (h2 : a.tid = b.tid) :
    re_thread_check a cur = re_thread_check b cur := by
  unfold re_thread_check
  rw [h1, h2]

theorem fd_listen_switch_reg_spec (s2 : Re) (fd : Int) (flags : Nat)
    (fh : Option Nat) (arg : Nat) (hfl : flags ≠ 0)
    (hep : s2.method = .epoll → 0 ≤ s2.epfd) :
    (fd_listen_switch s2 fd flags fh arg).2.2 = true ∧
    (fd_listen_switch s2 fd flags fh arg).2.1.nfds =
      (fhs_update s2 fd flags fh arg).1.nfds ∧
    (fd_listen_switch s2 fd flags fh arg).2.1.fhl =
      (fhs_update s2 fd flags fh arg).1.fhl := by
  have key : ∀ (b2 : Re) (e : Int),
      b2.nfds = (fhs_update s2 fd flags fh arg).1.nfds →
      b2.fhl = (fhs_update s2 fd flags fh arg).1.fhl →
      ((fd_listen_post b2 fd flags e).2.2 = true ∧
       (fd_listen_post b2 fd flags e).2.1.nfds =
         (fhs_update s2 fd flags fh arg).1.nfds ∧
       (fd_listen_post b2 fd flags e).2.1.fhl =
         (fhs_update s2 fd flags fh arg).1.fhl) := by
    intro b2 e k1 k2
    rw [fd_listen_post_reg b2 fd flags e hfl]
    by_cases he : e = 0
    · rw [if_pos he]
      exact ⟨rfl, k1, k2⟩
    · rw [if_neg he]
      exact ⟨rfl, k1, k2⟩
  unfold fd_listen_switch
  dsimp only
  rw [if_neg (fhs_update_guard s2 fd flags fh arg hep)]
  rcases hmm : (fhs_update s2 fd flags fh arg).1.method <;> simp only [hmm]
  · exact key _ _ rfl rfl
  · have hst := set_poll_fds_state (fhs_update s2 fd flags fh arg).1
      (fhs_update s2 fd flags fh arg).2
    refine key _ _ ?_ ?_ <;> rw [hst]
  · exact key _ _ rfl rfl
  · unfold set_epoll_fds
    split
    · exact key _ _ rfl rfl
    · exact key _ _ rfl rfl
  · exact key _ _ rfl rfl

theorem fd_listen_core_fields (re : Re) (cur : Nat) (fd : Int) (flags : Nat)
    (fh : Option Nat) (arg : Nat) :
    (fd_listen_core re cur fd flags fh arg).2.1.tid = re.tid ∧
    (fd_listen_core re cur fd flags fh arg).2.1.thread_enter = re.thread_enter ∧
    ((re.method = .epoll → 0 ≤ re.epfd) →
      ((fd_listen_core re cur fd flags fh arg).2.1.method = .epoll →
        0 ≤ (fd_listen_core re cur fd flags fh arg).2.1.epfd)) := by
  obtain ⟨e1, hpres, pis, pnn, pep, _⟩ := poll_setup_spec re
  unfold fd_listen_core
  by_cases hc : re_thread_check re cur ≠ 0
  · rw [if_pos hc]
    exact ⟨rfl, rfl, fun h => h⟩
  rw [if_neg hc]
  by_cases hb : fd = BAD_SOCK
  · rw [if_pos hb]
    exact ⟨rfl, rfl, fun h => h⟩
  rw [if_neg hb]
  by_cases hps : flags ≠ 0 ∨ fh.isSome = true
  · rw [if_pos hps, if_neg (by rw [e1]; exact fun hx => hx rfl)]
    obtain ⟨w1, w2, w3, w4⟩ := fd_listen_switch_fields (poll_setup re).2 fd flags fh arg
    refine ⟨?_, ?_, ?_⟩
    · rw [w1, hpres.2.2.2.2.1]
    · rw [w2, hpres.2.2.2.2.2.1]
    · intro _ hx
      rw [w4]
      exact pep (by rw [← w3]; exact hx)
  · have hcond : ¬(flags ≠ 0 ∨ fh.isSome = true) := hps
    rw [if_neg hcond, if_neg (by exact fun hx => hx rfl)]
    obtain ⟨w1, w2, w3, w4⟩ := fd_listen_switch_fields re fd flags fh arg
    refine ⟨w1, w2, ?_⟩
    · intro hg hx
      rw [w4]
      exact hg (by rw [← w3]; exact hx)

theorem fd_listen_check_fail (re : Re) (cur : Nat) (fd : Int) (flags : Nat)
    (fh : Option Nat) (arg : Nat) (hch : re_thread_check re cur ≠ 0) :
    fd_listen re cur fd flags fh arg = (re_thread_check re cur, re) := by
  unfold fd_listen fd_listen_core
  dsimp only
  rw [if_pos hch]
  rw [if_neg (by rintro ⟨hx, _⟩; cases hx)]

theorem fd_listen_badsock (re : Re) (cur : Nat) (flags : Nat)
    (fh : Option Nat) (arg : Nat) (hch : re_thread_check re cur = 0) :
    fd_listen re cur BAD_SOCK flags fh arg = (EBADF, re) := by
  unfold fd_listen fd_listen_core
  dsimp only
  rw [if_neg (show ¬(re_thread_check re cur ≠ 0) from fun hx => hx hch),
      if_pos rfl]
  rw [if_neg (by rintro ⟨hx, _⟩; cases hx)]

theorem fd_listen_fields (re : Re) (cur : Nat) (fd : Int) (flags : Nat)
    (fh : Option Nat) (arg : Nat) :
    (fd_listen re cur fd flags fh arg).2.tid = re.tid ∧
    (fd_listen re cur fd flags fh arg).2.thread_enter = re.thread_enter ∧
    ((re.method = .epoll → 0 ≤ re.epfd) →
      ((fd_listen re cur fd flags fh arg).2.method = .epoll →
        0 ≤ (fd_listen re cur fd flags fh arg).2.epfd)) := by
  unfold fd_listen
  dsimp only
  split
  · obtain ⟨a1, a2, a3⟩ := fd_listen_core_fields re cur fd flags fh arg
    obtain ⟨b1, b2, b3⟩ := fd_listen_core_fields
      (fd_listen_core re cur fd flags fh arg).2.1 cur fd 0 none 0
    exact ⟨b1.trans a1, b2.trans a2, fun hg => b3 (a3 hg)⟩
  · exact fd_listen_core_fields re cur fd flags fh arg

theorem fd_listen_reg_inactive (re : Re) (cur : Nat) (fd : Int) (flags : Nat)
    (fh : Option Nat) (arg : Nat)
    (hch : re_thread_check re cur = 0) (hbs : fd ≠ BAD_SOCK) (hfl : flags ≠ 0)
    (hn : 0 ≤ re.nfds) (hnd : re_nodup re)
    (hep : re.method = .epoll → 0 ≤ re.epfd)
    (hall : ∀ g ∈ listO re.fhl, g.fd = fd → g.index = -1) :
    ((fd_listen re cur fd flags fh arg).2.nfds = re.nfds + 1 ∧
       (∃ g, fhl_lookup (fd_listen re cur fd flags fh arg).2.fhl fd = some g ∧
          g.index ≠ -1)) ∨
    ((fd_listen re cur fd flags fh arg).2.nfds = re.nfds ∧
       (∀ g, fhl_lookup (fd_listen re cur fd flags fh arg).2.fhl fd = some g →
          g.index = -1)) := by
  obtain ⟨e1, hpres, pis, pnn, pep, _⟩ := poll_setup_spec re
  have hcore : fd_listen_core re cur fd flags fh arg =
      fd_listen_switch (poll_setup re).2 fd flags fh arg := by
    unfold fd_listen_core
    rw [if_neg (fun hx => hx hch), if_neg hbs]
    dsimp only
    rw [if_pos (Or.inl hfl), if_neg (by rw [e1]; exact fun hx => hx rfl)]
  obtain ⟨st, sn, sf⟩ :=
    fd_listen_switch_reg_spec (poll_setup re).2 fd flags fh arg hfl pep
  have hlk : fhl_lookup (poll_setup re).2.fhl fd = fhl_lookup re.fhl fd := by
    rw [fhl_lookup_eq_findFd_listO, fhl_lookup_eq_findFd_listO, hpres.2.1]
  have hidx : (match fhl_lookup (poll_setup re).2.fhl fd with
      | some g => if g.index = -1 then (1 : Int) else 0
      | none => 1) = 1 := by
    rw [hlk]
    rcases hq : fhl_lookup re.fhl fd with _ | g0
    · rfl
    · have hg0 : g0.index = -1 := by
        rw [fhl_lookup_eq_findFd_listO] at hq
        obtain ⟨hm, hfd⟩ := findFd_mem hq
        exact hall g0 hm hfd
      simp [hg0]
  have hnu : (fhs_update (poll_setup re).2 fd flags fh arg).1.nfds = re.nfds + 1 := by
    rw [fhs_update_nfds, hidx, hpres.1]
  have hlu : fhl_lookup (fhs_update (poll_setup re).2 fd flags fh arg).1.fhl fd =
      some ⟨re.nfds, fd, flags, fh, arg⟩ := by
    rw [fhs_update_lookup _ fd flags fh arg pis]
    rw [hlk]
    rcases hq : fhl_lookup re.fhl fd with _ | g0
    · rw [hpres.1]
    · have hg0 : g0.index = -1 := by
        rw [fhl_lookup_eq_findFd_listO] at hq
        obtain ⟨hm, hfd⟩ := findFd_mem hq
        exact hall g0 hm hfd
      simp only [hg0, ite_true, if_true]
      rw [hpres.1]
  have hs2nd : re_nodup (poll_setup re).2 := by
    unfold re_nodup
    rw [hpres.2.1]
    exact hnd
  have hr1nd : re_nodup (fd_listen_switch (poll_setup re).2 fd flags fh arg).2.1 :=
    fd_listen_switch_nodup _ fd flags fh arg hs2nd
  obtain ⟨w1, w2, w3, w4⟩ := fd_listen_switch_fields (poll_setup re).2 fd flags fh arg
  unfold fd_listen
  dsimp only
  rw [hcore]
  by_cases he : (fd_listen_switch (poll_setup re).2 fd flags fh arg).1 = 0
  · rw [if_neg (by rintro ⟨_, hx, _⟩; exact hx he)]
    left
    refine ⟨by rw [sn, hnu], ⟨⟨re.nfds, fd, flags, fh, arg⟩, ?_, by simp; omega⟩⟩
    rw [sf]
    exact hlu
  · rw [if_pos ⟨st, he, hfl⟩]
    right
    have hchr : re_thread_check
        (fd_listen_switch (poll_setup re).2 fd flags fh arg).2.1 cur = 0 := by
      rw [re_thread_check_congr _ re cur
        (by rw [w2, hpres.2.2.2.2.2.1])
        (by rw [w1, hpres.2.2.2.2.1])]
      exact hch
    have hepr : (fd_listen_switch (poll_setup re).2 fd flags fh arg).2.1.method =
        .epoll → 0 ≤ (fd_listen_switch (poll_setup re).2 fd flags fh arg).2.1.epfd := by
      intro hx
      rw [w4]
      exact pep (by rw [← w3]; exact hx)
    obtain ⟨d1, d2⟩ := fd_listen_core_dereg_spec
      (fd_listen_switch (poll_setup re).2 fd flags fh arg).2.1 cur fd none 0
      hchr hbs hepr hr1nd
    constructor
    · rw [d1, sn, hnu, sf, hlu]
      have hne : re.nfds ≠ -1 := by omega
      simp [hne]
    · exact d2

/-! ### Success characterization of a registration -/

theorem fd_listen_fst (re : Re) (cur : Nat) (fd : Int) (flags : Nat)
    (fh : Option Nat) (arg : Nat) :
    (fd_listen re cur fd flags fh arg).1 = (fd_listen_core re cur fd flags fh arg).1 := by
  unfold fd_listen
  dsimp only
  split <;> rfl

theorem fd_listen_reg_lookup (re : Re) (cur : Nat) (fd : Int) (flags : Nat)
    (fh : Option Nat) (arg : Nat) (i : Int)
    (hch : re_thread_check re cur = 0) (hbs : fd ≠ BAD_SOCK) (hfl : flags ≠ 0)
    (hep : re.method = .epoll → 0 ≤ re.epfd)
    (herr : (fd_listen re cur fd flags fh arg).1 = 0)
    (hi : (match fhl_lookup re.fhl fd with
           | some g => if g.index = -1 then re.nfds else g.index
           | none => re.nfds) = i) :
    fhl_lookup (fd_listen re cur fd flags fh arg).2.fhl fd =
      some ⟨i, fd, flags, fh, arg⟩ := by
  subst hi
  obtain ⟨e1, hpres, pis, pnn, pep, _⟩ := poll_setup_spec re
  have hcore : fd_listen_core re cur fd flags fh arg =
      fd_listen_switch (poll_setup re).2 fd flags fh arg := by
    unfold fd_listen_core
    rw [if_neg (fun hx => hx hch), if_neg hbs]
    dsimp only
    rw [if_pos (Or.inl hfl), if_neg (by rw [e1]; exact fun hx => hx rfl)]
  have hc1 : (fd_listen_core re cur fd flags fh arg).1 = 0 := by
    rw [← fd_listen_fst]; exact herr
  have hstate : (fd_listen re cur fd flags fh arg).2 =
      (fd_listen_core re cur fd flags fh arg).2.1 := by
    unfold fd_listen
    dsimp only
    rw [if_neg (by rintro ⟨_, hx, _⟩; exact hx hc1)]
  obtain ⟨st, sn, sf⟩ :=
    fd_listen_switch_reg_spec (poll_setup re).2 fd flags fh arg hfl pep
  have hlk : fhl_lookup (poll_setup re).2.fhl fd = fhl_lookup re.fhl fd := by
    rw [fhl_lookup_eq_findFd_listO, fhl_lookup_eq_findFd_listO, hpres.2.1]
  rw [hstate, hcore, sf, fhs_update_lookup _ fd flags fh arg pis, hlk, hpres.1]

/-! ### The claims -/

/-- C1.  For every sequence of `fd_listen` register/deregister calls on a
fresh reactor, the `nfds` counter — the value `re_nfds` reports for that
reactor — equals the number of registered records whose interest mask is
non-empty. -/
theorem claim_C1_nfds_counts_active (tid : Nat) (ops : List FdOp) (glob : Option Re) :
    re_nfds (some (run_ops (re_alloc tid) ops)) glob =
      countActiveO (run_ops (re_alloc tid) ops).fhl := by
  have h : re_wf (re_alloc tid) := by
    refine ⟨rfl, ?_, ?_⟩
    · intro g hg
      simp [re_alloc, listO] at hg
    · intro hx
      simp [re_alloc] at hx
  exact (run_ops_wf ops (re_alloc tid) h).1

/-- C2 counterexample.  Registering a handle that is already active and then
deregistering it does not restore `nfds`: from a state with `nfds = 1` where
handle 3 is active, register(3, mask 1) followed by register(3, 0) leaves
`nfds = 0`, not 1. -/
theorem claim_C2_counterexample :
    (fd_listen (fd_listen (fd_listen (re_alloc 0) 0 3 1 (some 0) 0).2
        0 3 1 (some 0) 0).2 0 3 0 none 0).2.nfds ≠
      (fd_listen (re_alloc 0) 0 3 1 (some 0) 0).2.nfds := by
  decide

/-- C2 (amended).  If the handle is not active before the pair (every
registry record for it has index -1), then register(fd, mask) followed by
register(fd, 0) restores `nfds` to its prior value — whatever the reuse
policy and whether or not the registration succeeded. -/
theorem claim_C2_register_deregister_roundtrip (re : Re) (cur : Nat) (fd : Int)
    (flags : Nat) (fh fh' : Option Nat) (arg arg' : Nat) (hfl : flags ≠ 0)
    (hn : 0 ≤ re.nfds) (hnd : re_nodup re)
    (hep : re.method = .epoll → 0 ≤ re.epfd)
    (hall : ∀ g ∈ listO re.fhl, g.fd = fd → g.index = -1) :
    (fd_listen (fd_listen re cur fd flags fh arg).2 cur fd 0 fh' arg').2.nfds
      = re.nfds := by
  by_cases hch : re_thread_check re cur = 0
  · by_cases hbs : fd = BAD_SOCK
    · subst hbs
      rw [fd_listen_badsock re cur flags fh arg hch]
      dsimp only
      rw [fd_listen_badsock re cur 0 fh' arg' hch]
    · have h := fd_listen_reg_inactive re cur fd flags fh arg hch hbs hfl hn hnd hep hall
      obtain ⟨f1, f2, f3⟩ := fd_listen_fields re cur fd flags fh arg
      have hch1 : re_thread_check (fd_listen re cur fd flags fh arg).2 cur = 0 := by
        rw [re_thread_check_congr _ re cur f2 f1]; exact hch
      have hnd1 : re_nodup (fd_listen re cur fd flags fh arg).2 :=
        fd_listen_nodup re cur fd flags fh arg hnd
      obtain ⟨d1, d2⟩ := fd_listen_core_dereg_spec
        (fd_listen re cur fd flags fh arg).2 cur fd fh' arg' hch1 hbs (f3 hep) hnd1
      rw [fd_listen_zero]
      dsimp only
      rw [d1]
      rcases h with ⟨h1, g, hg, hgi⟩ | ⟨h1, h2⟩
      · simp only [hg]
        rw [if_neg hgi]
        omega
      · rcases hq : fhl_lookup (fd_listen re cur fd flags fh arg).2.fhl fd with _ | g
        · simp only [hq]
          omega
        · have hgi := h2 g hq
          simp only [hq]
          rw [if_pos hgi]
          omega
  · rw [fd_listen_check_fail re cur fd flags fh arg hch]
    dsimp only
    rw [fd_listen_check_fail re cur fd 0 fh' arg' hch]

/-- C2 witness: the amended round trip at a concrete input. -/
theorem claim_C2_register_deregister_roundtrip_witness :
    (fd_listen (fd_listen (re_alloc 0) 0 3 1 (some 0) 0).2 0 3 0 none 0).2.nfds
      = (re_alloc 0).nfds :=
  claim_C2_register_deregister_roundtrip (re_alloc 0) 0 3 1 (some 0) none 0 0
    (by decide) (by decide) (by decide) (by decide) (by decide)

/-- C3 counterexample.  A registration on the sentinel handle returns
EBADF (the BAD_HANDLE kind), not EINVAL (the INVALID kind). -/
theorem claim_C3_counterexample :
    (fd_listen (re_alloc 1) 1 BAD_SOCK 1 none 0).1 = EBADF ∧ EBADF ≠ EINVAL := by
  constructor
  · decide
  · decide

/-- C3 (amended).  A register/deregister call on the sentinel handle fails
with EBADF (BAD_HANDLE) — not EINVAL — and leaves the reactor unchanged. -/
theorem claim_C3_sentinel_handle (re : Re) (cur : Nat) (flags : Nat)
    (fh : Option Nat) (arg : Nat) (hch : re_thread_check re cur = 0) :
    fd_listen re cur BAD_SOCK flags fh arg = (EBADF, re) :=
  fd_listen_badsock re cur flags fh arg hch

/-- C3 witness: the sentinel failure at a concrete input. -/
theorem claim_C3_sentinel_handle_witness :
    fd_listen (re_alloc 1) 1 BAD_SOCK 2 none 0 = (EBADF, re_alloc 1) :=
  claim_C3_sentinel_handle (re_alloc 1) 1 2 none 0 (by decide)

/-- C4 counterexample.  On the platform with the workaround (DARWIN) the
loop retries EBADF without bound — two consecutive EBADF results do not
surface (the loop is still running) — while without the workaround the very
first EBADF surfaces, with no retry. -/
theorem claim_C4_counterexample :
    re_main true (some (re_alloc 0)) false [EBADF, EBADF] = none ∧
    Option.map Prod.fst (re_main false (some (re_alloc 0)) false [EBADF]) =
      some EBADF := by
  constructor
  · decide
  · decide

/-- C4 (amended).  The DARWIN build retries EBADF unconditionally: no trace
makes the loop surface EBADF.  Every other build surfaces EBADF at once,
without any retry. -/
theorem claim_C4_badf_retry (t : List Int) :
    re_main_loop true t ≠ some EBADF ∧
    re_main_loop false (EBADF :: t) = some EBADF := by
  constructor
  · induction t with
    | nil =>
      intro hx
      simp [re_main_loop] at hx
    | cons e t ih =>
      unfold re_main_loop
      by_cases h0 : e ≠ 0
      · rw [if_pos h0]
        by_cases hi : e = EINTR
        · rw [if_pos hi]; exact ih
        · rw [if_neg hi]
          by_cases hb : e = EBADF
          · rw [if_pos (show true = true ∧ e = EBADF from ⟨rfl, hb⟩)]
            exact ih
          · rw [if_neg (show ¬(true = true ∧ e = EBADF) from fun hx => hb hx.2)]
            intro hx
            exact hb (Option.some.inj hx)
      · rw [if_neg h0]
        exact ih
  · simp [re_main_loop, EBADF, EINTR]

/-- C5.  When both of two consecutive registrations of the same handle with
the same non-empty mask succeed, they yield one dense index: the first call
binds the record to an index `i ≠ -1`, and the second call keeps `i` while
replacing the callback and argument in place. -/
theorem claim_C5_index_stable (re : Re) (cur : Nat) (fd : Int) (flags : Nat)
    (fh fh' : Option Nat) (arg arg' : Nat)
    (hch : re_thread_check re cur = 0) (hbs : fd ≠ BAD_SOCK) (hfl : flags ≠ 0)
    (hn : 0 ≤ re.nfds) (hep : re.method = .epoll → 0 ≤ re.epfd)
    (h1 : (fd_listen re cur fd flags fh arg).1 = 0)
    (h2 : (fd_listen (fd_listen re cur fd flags fh arg).2 cur fd flags fh' arg').1 = 0) :
    ∃ i, i ≠ -1 ∧
      fhl_lookup (fd_listen re cur fd flags fh arg).2.fhl fd
        = some ⟨i, fd, flags, fh, arg⟩ ∧
      fhl_lookup (fd_listen (fd_listen re cur fd flags fh arg).2
          cur fd flags fh' arg').2.fhl fd
        = some ⟨i, fd, flags, fh', arg'⟩ := by
  obtain ⟨f1, f2, f3⟩ := fd_listen_fields re cur fd flags fh arg
  have hch1 : re_thread_check (fd_listen re cur fd flags fh arg).2 cur = 0 := by
    rw [re_thread_check_congr _ re cur f2 f1]; exact hch
  have hep1 := f3 hep
  rcases hq : fhl_lookup re.fhl fd with _ | g0
  · have hne : re.nfds ≠ -1 := by omega
    have hl1 := fd_listen_reg_lookup re cur fd flags fh arg re.nfds
      hch hbs hfl hep h1 (by simp only [hq])
    have hl2 := fd_listen_reg_lookup (fd_listen re cur fd flags fh arg).2
      cur fd flags fh' arg' re.nfds hch1 hbs hfl hep1 h2
      (by simp only [hl1]; rw [if_neg hne])
    exact ⟨re.nfds, hne, hl1, hl2⟩
  · by_cases hgi : g0.index = -1
    · have hne : re.nfds ≠ -1 := by omega
      have hl1 := fd_listen_reg_lookup re cur fd flags fh arg re.nfds
        hch hbs hfl hep h1 (by simp only [hq]; rw [if_pos hgi])
      have hl2 := fd_listen_reg_lookup (fd_listen re cur fd flags fh arg).2
        cur fd flags fh' arg' re.nfds hch1 hbs hfl hep1 h2
        (by simp only [hl1]; rw [if_neg hne])
      exact ⟨re.nfds, hne, hl1, hl2⟩
    · have hl1 := fd_listen_reg_lookup re cur fd flags fh arg g0.index
        hch hbs hfl hep h1 (by simp only [hq]; rw [if_neg hgi])
      have hl2 := fd_listen_reg_lookup (fd_listen re cur fd flags fh arg).2
        cur fd flags fh' arg' g0.index hch1 hbs hfl hep1 h2
        (by simp only [hl1]; rw [if_neg hgi])
      exact ⟨g0.index, hgi, hl1, hl2⟩

/-- C5 witness: the stable index at a concrete input. -/
theorem claim_C5_index_stable_witness :
    ∃ i, i ≠ -1 ∧
      fhl_lookup (fd_listen (re_alloc 0) 0 3 1 (some 0) 0).2.fhl 3
        = some ⟨i, 3, 1, some 0, 0⟩ ∧
      fhl_lookup (fd_listen (fd_listen (re_alloc 0) 0 3 1 (some 0) 0).2
          0 3 1 (some 1) 5).2.fhl 3
        = some ⟨i, 3, 1, some 1, 5⟩ :=
  claim_C5_index_stable (re_alloc 0) 0 3 1 (some 0) (some 1) 0 5
    (by decide) (by decide) (by decide) (by decide) (by decide) (by decide) (by decide)

/-- C6.  The thread check passes exactly for the owning thread or inside a
`thread_enter` window; in every other case it returns EPERM (PERMISSION). -/
theorem claim_C6_thread_check (re : Re) (cur : Nat) :
    (re_thread_check re cur = 0 ↔ (cur = re.tid ∨ re.thread_enter = true)) ∧
    (¬(cur = re.tid ∨ re.thread_enter = true) → re_thread_check re cur = EPERM) := by
  unfold re_thread_check
  by_cases h1 : re.thread_enter = true
  · rw [if_pos h1]
    simp [h1]
  · rw [if_neg h1]
    by_cases h2 : cur = re.tid
    · rw [if_pos h2]
      simp [h1, h2]
    · rw [if_neg h2]
      simp [h1, h2, EPERM]

/-- C7 counterexample.  A `thread_enter` by the owning thread does not set
the `thread_enter` flag. -/
theorem claim_C7_counterexample :
    (re_thread_enter (re_alloc 5) 5).thread_enter = false := by
  decide

/-- C7 (amended).  Every `thread_enter` call acquires the mutex and disables
record reuse, but the `thread_enter` flag is set only when the caller is not
the owning thread; the owner's call leaves the flag as it was. -/
theorem claim_C7_thread_enter (re : Re) (cur : Nat) :
    (re_thread_enter re cur).mutexHeld = true ∧
    (re_thread_enter re cur).fhs_reuse = false ∧
    (cur ≠ re.tid → (re_thread_enter re cur).thread_enter = true) ∧
    (cur = re.tid → (re_thread_enter re cur).thread_enter = re.thread_enter) := by
  unfold re_thread_enter
  dsimp only
  by_cases h : cur = re.tid
  · rw [if_neg (fun hx => hx h)]
    exact ⟨rfl, rfl, fun hc => absurd h hc, fun _ => rfl⟩
  · rw [if_pos h]
    exact ⟨rfl, rfl, fun _ => rfl, fun hc => absurd hc h⟩

/-- C8.  Entering `re_main` while the loop is already polling returns
EALREADY, does not run the loop, and leaves the reactor untouched. -/
theorem claim_C8_already_polling (darwin : Bool) (re : Re) (sh : Bool)
    (trace : List Int) (hp : re.polling = true) :
    re_main darwin (some re) sh trace = some (EALREADY, some re) := by
  simp only [re_main]
  rw [if_pos hp]

/-- C8 witness: the EALREADY bail-out at a concrete input. -/
theorem claim_C8_already_polling_witness :
    re_main false (some { re_alloc 0 with polling := true }) false [] =
      some (EALREADY, some { re_alloc 0 with polling := true }) :=
  claim_C8_already_polling false { re_alloc 0 with polling := true } false [] rfl

/-- C9.  `re_thread_attach` fails with EINVAL on a missing argument, and
with EALREADY — keeping the existing binding — when the thread is already
bound to a different reactor. -/
theorem claim_C9_thread_attach (slot : Option Nat) (r c : Nat) (h : r ≠ c) :
    re_thread_attach slot none = (EINVAL, slot) ∧
    re_thread_attach (some r) (some c) = (EALREADY, some r) := by
  constructor
  · cases slot <;> rfl
  · simp only [re_thread_attach]
    rw [if_pos h]

/-- C9 witness: the attach failures at a concrete input. -/
theorem claim_C9_thread_attach_witness :
    re_thread_attach (some 1) none = (EINVAL, some 1) ∧
    re_thread_attach (some 1) (some 2) = (EALREADY, some 1) :=
  claim_C9_thread_attach (some 1) 1 2 (by decide)

/-- C10.  Without a per-thread or global reactor the queries do not fail:
`re_nfds` returns 0 and `poll_method_get` the null mechanism. -/
theorem claim_C10_queries_without_reactor :
    re_nfds none none = 0 ∧ poll_method_get none none = PollMethod.null :=
  ⟨rfl, rfl⟩
